import Mathlib

/-!
Verification development for the rindo monitoring pipeline
(`rindo-core/scripts/monitor_agencies.py` and friends).

The Python source is shallowly embedded: strings are `List Char`,
Python `None` is `Option.none`, Python dicts holding the event records
are Lean structures, `re`-based pattern tests are translated into
explicit executable matchers with the same search semantics, and the
pieces of `urllib.parse` that `canonical_url` calls are translated from
CPython's `urllib/parse.py` (lstrip of control-or-space, removal of
tab/CR/LF, scheme/netloc/query splitting, `parse_qsl` with
`keep_blank_values=True`, `urlencode` via `quote_plus`, `urlunsplit`).
Exceptions that the Python code never raises on the inputs considered
(IPv6 bracket validation inside `urlsplit`) are omitted; where Python
leaves behaviour unspecified (iteration order of a `set` in
`pick_names`) the model fixes insertion order and theorems only rely on
cases where the set has at most one element after filtering.
-/

namespace Rindo

abbrev Chars := List Char

/-- Python truthiness-based fallback `a or b` for an optional string:
`None or b = b`, `"" or b = b`, otherwise the string itself. -/
def pyStrOr (a : Option Chars) (b : Chars) : Chars :=
  match a with
  | some s => if s = [] then b else s
  | none => b

/-- Whitespace characters matched by Python's `str.strip()` and by the
regex class `[　\s]` (Unicode whitespace; the listed code points are the
ones Python's `str.isspace` accepts). -/
def pyWhite (c : Char) : Bool :=
  (9 ≤ c.toNat && c.toNat ≤ 13) || (28 ≤ c.toNat && c.toNat ≤ 31) ||
  c.toNat = 32 || c.toNat = 133 || c.toNat = 160 || c.toNat = 0x1680 ||
  (0x2000 ≤ c.toNat && c.toNat ≤ 0x200A) || c.toNat = 0x2028 || c.toNat = 0x2029 ||
  c.toNat = 0x202F || c.toNat = 0x205F || c.toNat = 0x3000

/-- Python `str.strip()`: drop leading and trailing whitespace. -/
def pyStrip (l : Chars) : Chars :=
  ((l.dropWhile pyWhite).reverse.dropWhile pyWhite).reverse

/-- Python `str.replace(pat, "")`: remove all non-overlapping occurrences
of `pat`, scanning left to right.  The `fuel` argument only makes the
recursion structural; it is initialised to the length of the list, which
always suffices. -/
def removeAllAux (pat : Chars) : Nat → Chars → Chars
  | _, [] => []
  | 0, l => l
  | fuel + 1, c :: t =>
    if pat ≠ [] ∧ pat.isPrefixOf (c :: t) then
      removeAllAux pat fuel ((c :: t).drop pat.length)
    else
      c :: removeAllAux pat fuel t

def removeAll (pat : Chars) (l : Chars) : Chars :=
  removeAllAux pat l.length l

/-- Characters removed by `norm_rindo_name`'s final class
`[（）()・･‐\-—―ｰ]`. -/
def puncJP (c : Char) : Bool :=
  c = '（' || c = '）' || c = '(' || c = ')' || c = '・' || c = '･' ||
  c = '‐' || c = '-' || c = '—' || c = '―' || c = 'ｰ'

/-- `re.sub(r"(線|せん|道)$", "", t)`: the anchored alternation strips one
trailing `せん` (the leftmost match starts two characters from the end)
or else one trailing `線`/`道`. -/
def stripRindoSuffix (l : Chars) : Chars :=
  if ['せ', 'ん'].isSuffixOf l then l.dropLast.dropLast
  else if l.getLast? = some '線' ∨ l.getLast? = some '道' then l.dropLast
  else l

/-- `norm_rindo_name` from monitor_agencies.py: remove whitespace, remove
all `林道`/`森林管理道`, strip one trailing `線/せん/道`, remove the
bracket/dash/middle-dot class. -/
def norm_rindo_name (s : Chars) : Chars :=
  if s = [] then []
  else
    (stripRindoSuffix
        (removeAll ['森', '林', '管', '理', '道']
          (removeAll ['林', '道']
            (s.filter (fun c => !pyWhite c))))).filter (fun c => !puncJP c)

example : norm_rindo_name "線線".toList = "線".toList := by decide
example : norm_rindo_name (norm_rindo_name "線線".toList) = [] := by decide
example : norm_rindo_name "大山林道".toList = "大山".toList := by decide
example : norm_rindo_name "abc-d e".toList = "abcde".toList := by decide

theorem removeAllAux_of_head_not_mem (pat : Chars) (h0 : Char) (hp : pat.head? = some h0)
    (fuel : Nat) (l : Chars) (h : h0 ∉ l) : removeAllAux pat fuel l = l := by
  induction fuel generalizing l with
  | zero => cases l <;> rfl
  | succ fuel ih =>
    cases l with
    | nil => rfl
    | cons c t =>
      have hpre : ¬ (pat ≠ [] ∧ pat.isPrefixOf (c :: t) = true) := by
        rintro ⟨hne, hpref⟩
        have := List.isPrefixOf_iff_prefix.mp hpref
        obtain ⟨r, hr⟩ := this
        cases pat with
        | nil => exact hne rfl
        | cons p0 pt =>
          simp at hp
          subst hp
          simp at hr
          exact h (by simp [← hr.1])
      rw [removeAllAux, if_neg hpre]
      have : h0 ∉ t := fun hm => h (List.mem_cons_of_mem _ hm)
      rw [ih t this]

theorem removeAll_of_head_not_mem (pat : Chars) (h0 : Char) (hp : pat.head? = some h0)
    (l : Chars) (h : h0 ∉ l) : removeAll pat l = l :=
  removeAllAux_of_head_not_mem pat h0 hp l.length l h

theorem stripRindoSuffix_of_ascii (l : Chars) (h : ∀ c ∈ l, c.toNat < 128) :
    stripRindoSuffix l = l := by
  unfold stripRindoSuffix
  have hsuf : ¬ (['せ', 'ん'].isSuffixOf l = true) := by
    intro hs
    have := List.isSuffixOf_iff_suffix.mp hs
    have hm : 'ん' ∈ l := List.IsSuffix.mem (by simp) this
    exact absurd (h _ hm) (by decide)
  have hlast : ¬ (l.getLast? = some '線' ∨ l.getLast? = some '道') := by
    rintro (hg | hg) <;>
    · have hm := List.mem_of_mem_getLast? hg
      exact absurd (h _ hm) (by decide)
  rw [if_neg hsuf, if_neg hlast]

theorem norm_rindo_name_of_ascii (l : Chars) (h : ∀ c ∈ l, c.toNat < 128) :
    norm_rindo_name l = l.filter (fun c => !puncJP c && !pyWhite c) := by
  unfold norm_rindo_name
  by_cases hl : l = []
  · subst hl; simp
  · rw [if_neg hl]
    have hsub : ∀ c ∈ l.filter (fun c => !pyWhite c), c.toNat < 128 := by
      intro c hc
      exact h c (List.mem_of_mem_filter hc)
    rw [removeAll_of_head_not_mem ['林', '道'] '林' rfl _ (by
      intro hm; exact absurd (hsub _ hm) (by decide))]
    rw [removeAll_of_head_not_mem ['森', '林', '管', '理', '道'] '森' rfl _ (by
      intro hm; exact absurd (hsub _ hm) (by decide))]
    rw [stripRindoSuffix_of_ascii _ hsub]
    rw [List.filter_filter]

/-- Claim C8 (counterexample): `norm_rindo_name` is not idempotent in
general; the string 線線 normalises to 線, which normalises again to the
empty string, because the trailing-suffix strip fires once per call. -/
theorem c8_counterexample :
    norm_rindo_name (norm_rindo_name "線線".toList) ≠ norm_rindo_name "線線".toList := by
  decide

/-- Claim C8 (amended): on inputs containing only ASCII characters the
normaliser is idempotent (it reduces to a character filter, and filters
are idempotent); on arbitrary strings idempotence fails (see the
counterexample). -/
theorem c8_norm_rindo_ascii_idem (l : Chars) (h : ∀ c ∈ l, c.toNat < 128) :
    norm_rindo_name (norm_rindo_name l) = norm_rindo_name l := by
  have h2 : ∀ c ∈ l.filter (fun c => !puncJP c && !pyWhite c), c.toNat < 128 := by
    intro c hc
    exact h c (List.mem_of_mem_filter hc)
  rw [norm_rindo_name_of_ascii l h]
  rw [norm_rindo_name_of_ascii _ h2, List.filter_filter]
  congr 1
  funext c
  cases hp : puncJP c <;> cases hw : pyWhite c <;> simp [hp, hw]

/-- `re.search` with a plain alternation of literals is true iff some
literal occurs as a contiguous substring; `containsSub pat l` decides
whether `pat` occurs in `l`. -/
def containsSub (pat : Chars) : Chars → Bool
  | [] => pat.isPrefixOf []
  | c :: t => pat.isPrefixOf (c :: t) || containsSub pat t

example : containsSub "規制".toList "通行規制あり".toList = true := by decide
example : containsSub "規制".toList "通行止".toList = false := by decide

/-- ASCII decimal digit. -/
def isAsciiDigit (c : Char) : Bool := '0' ≤ c && c ≤ '9'

/-- Fullwidth decimal digit ０-９. -/
def isFullDigit (c : Char) : Bool := '０' ≤ c && c ≤ '９'

/-- Python `\d` (Unicode decimal digits; the ASCII and fullwidth forms
are the decimal-digit ranges the monitored Japanese pages use). -/
def pyDigit (c : Char) : Bool := isAsciiDigit c || isFullDigit c

/-- Unit alternatives of `_YMN_NUM_PAT`'s first branch:
`km/?h|kmh|km|m|t|ｔ|％|%`. -/
def ynUnits1 : List Chars :=
  ["km/h".toList, "kmh".toList, "km".toList, "m".toList, "t".toList,
   "ｔ".toList, "％".toList, "%".toList]

/-- Unit alternatives of `_YMN_NUM_PAT`'s second branch:
`ｋｍ/ｈ|ｋｍ|ｍ|ｔ`. -/
def ynUnits2 : List Chars :=
  ["ｋｍ/ｈ".toList, "ｋｍ".toList, "ｍ".toList, "ｔ".toList]

def unitHitAt (units : List Chars) (l : Chars) : Bool :=
  units.any (fun u => u.isPrefixOf l)

/-- First branch of `_YMN_NUM_PAT` anchored at the current position:
`\d+(?:\.\d+)?(?:km/?h|kmh|km|m|t|ｔ|％|%)` (greedy digit runs; the units
begin with non-digits, so the maximal run is the only candidate). -/
def ynNumBranch1At (l : Chars) : Bool :=
  let ds := l.takeWhile pyDigit
  let r := l.dropWhile pyDigit
  ds ≠ [] &&
    (unitHitAt ynUnits1 r ||
      match r with
      | '.' :: r2 =>
        let ds2 := r2.takeWhile pyDigit
        let r3 := r2.dropWhile pyDigit
        ds2 ≠ [] && unitHitAt ynUnits1 r3
      | _ => false)

/-- Second branch of `_YMN_NUM_PAT` anchored at the current position:
`[０-９]+(?:ｋｍ/ｈ|ｋｍ|ｍ|ｔ)`. -/
def ynNumBranch2At (l : Chars) : Bool :=
  let ds := l.takeWhile isFullDigit
  let r := l.dropWhile isFullDigit
  ds ≠ [] && unitHitAt ynUnits2 r

/-- `_YMN_NUM_PAT.search`: some position matches one of the branches. -/
def ynNumHit : Chars → Bool
  | [] => false
  | c :: t => ynNumBranch1At (c :: t) || ynNumBranch2At (c :: t) || ynNumHit t

example : ynNumHit "最高20km/h".toList = true := by decide
example : ynNumHit "幅員3.6m".toList = true := by decide
example : ynNumHit "２０ｋｍ".toList = true := by decide
example : ynNumHit "20 km".toList = false := by decide

/-- `_YMN_CLOSED_PAT.search`: `(通行止|全面通行止)`. -/
def ynClosedHit (l : Chars) : Bool :=
  containsSub "通行止".toList l || containsSub "全面通行止".toList l

/-- `_YMN_OPEN_PAT.search`: `(規制はありません|規制なし)`. -/
def ynOpenHit (l : Chars) : Bool :=
  containsSub "規制はありません".toList l || containsSub "規制なし".toList l

/-- `_YMN_REG_PAT.search`: `(規制|片側|交互|迂回|う回|チェーン|チェーン規制)`. -/
def ynRegHit (l : Chars) : Bool :=
  containsSub "規制".toList l || containsSub "片側".toList l ||
  containsSub "交互".toList l || containsSub "迂回".toList l ||
  containsSub "う回".toList l || containsSub "チェーン".toList l ||
  containsSub "チェーン規制".toList l

/-- `_yn_pick_status` from monitor_agencies.py: closed phrasing first,
then lifted/no-restriction phrasing, then restriction keywords or a
numeric token, else open. -/
def yn_pick_status (t : Chars) : Chars × Chars :=
  if ynClosedHit t then ("closed".toList, "通行止".toList)
  else if ynOpenHit t then ("open".toList, "規制はありません".toList)
  else if ynRegHit t || ynNumHit t then ("regulated".toList, "規制".toList)
  else ("open".toList, "開放".toList)

/-- Claim C3: any text with explicit lifted/no-restriction phrasing and a
restriction keyword or bare numeric-with-unit token, but no closure
phrasing, classifies as `open`: lifted phrasing precedes restriction
signals, and closure phrasing precedes both. -/
theorem c3_lifted_beats_restriction (t : Chars)
    (hopen : ynOpenHit t = true)
    (hsig : ynRegHit t = true ∨ ynNumHit t = true)
    (hclosed : ynClosedHit t = false) :
    (yn_pick_status t).1 = "open".toList := by
  unfold yn_pick_status
  rw [hclosed, if_neg (by simp), hopen, if_pos rfl]

theorem c3_witness :
    ynOpenHit "規制なし(最高20km/h)".toList = true ∧
      ynRegHit "規制なし(最高20km/h)".toList = true ∧
      ynClosedHit "規制なし(最高20km/h)".toList = false ∧
      (yn_pick_status "規制なし(最高20km/h)".toList).1 = "open".toList :=
  ⟨by decide, by decide, by decide,
    c3_lifted_beats_restriction "規制なし(最高20km/h)".toList (by decide)
      (Or.inl (by decide)) (by decide)⟩

theorem c8_witness :
    (∀ c ∈ "Abc- d(8)".toList, c.toNat < 128) ∧
      norm_rindo_name (norm_rindo_name "Abc- d(8)".toList) =
        norm_rindo_name "Abc- d(8)".toList :=
  ⟨by decide, c8_norm_rindo_ascii_idem "Abc- d(8)".toList (by decide)⟩

/-! UTF-8: Python encodes strings to UTF-8 bytes inside `quote`,
`hashlib.sha1(....encode("utf-8"))` and decodes with
`errors="replace"` inside `unquote`. -/

/-- UTF-8 encoding of one Unicode scalar value, as byte values. -/
def utf8EncChar (c : Char) : List Nat :=
  let n := c.toNat
  if n < 0x80 then [n]
  else if n < 0x800 then [0xC0 + n / 64, 0x80 + n % 64]
  else if n < 0x10000 then [0xE0 + n / 4096, 0x80 + n / 64 % 64, 0x80 + n % 64]
  else [0xF0 + n / 262144, 0x80 + n / 4096 % 64, 0x80 + n / 64 % 64, 0x80 + n % 64]

def utf8Enc (l : Chars) : List Nat := l.flatMap utf8EncChar

def isContByte (b : Nat) : Bool := 0x80 ≤ b && b < 0xC0

/-- Constraint on the second byte of a three-byte sequence (rules out
overlong encodings and surrogates). -/
def utf8Snd3 (b b2 : Nat) : Bool :=
  if b = 0xE0 then 0xA0 ≤ b2 && b2 ≤ 0xBF
  else if b = 0xED then 0x80 ≤ b2 && b2 ≤ 0x9F
  else isContByte b2

/-- Constraint on the second byte of a four-byte sequence. -/
def utf8Snd4 (b b2 : Nat) : Bool :=
  if b = 0xF0 then 0x90 ≤ b2 && b2 ≤ 0xBF
  else if b = 0xF4 then 0x80 ≤ b2 && b2 ≤ 0x8F
  else isContByte b2

/-- The replacement character U+FFFD produced by `errors="replace"`. -/
def replChar : Char := Char.ofNat 0xFFFD

/-- One step of UTF-8 decoding with replacement, as Python's
`bytes.decode("utf-8", "replace")`: given the leading byte and the
remaining bytes, produce the decoded character and the rest.  Valid
sequences decode exactly; an invalid or truncated sequence yields one
U+FFFD for its maximal valid subpart, as CPython's UTF-8 decoder does. -/
def utf8DecOne (b : Nat) (t : List Nat) : Char × List Nat :=
  if b < 0x80 then (Char.ofNat b, t)
  else if 0xC2 ≤ b && b ≤ 0xDF then
    match t with
    | b2 :: t2 =>
      if isContByte b2 then (Char.ofNat ((b - 0xC0) * 64 + (b2 - 0x80)), t2)
      else (replChar, b2 :: t2)
    | [] => (replChar, [])
  else if 0xE0 ≤ b && b ≤ 0xEF then
    match t with
    | b2 :: b3 :: t3 =>
      if utf8Snd3 b b2 then
        if isContByte b3 then
          (Char.ofNat ((b - 0xE0) * 4096 + (b2 - 0x80) * 64 + (b3 - 0x80)), t3)
        else (replChar, b3 :: t3)
      else (replChar, b2 :: b3 :: t3)
    | [b2] => if utf8Snd3 b b2 then (replChar, []) else (replChar, [b2])
    | [] => (replChar, [])
  else if 0xF0 ≤ b && b ≤ 0xF4 then
    match t with
    | b2 :: b3 :: b4 :: t4 =>
      if utf8Snd4 b b2 then
        if isContByte b3 then
          if isContByte b4 then
            (Char.ofNat
                ((b - 0xF0) * 262144 + (b2 - 0x80) * 4096 + (b3 - 0x80) * 64 +
                  (b4 - 0x80)), t4)
          else (replChar, b4 :: t4)
        else (replChar, b3 :: b4 :: t4)
      else (replChar, b2 :: b3 :: b4 :: t4)
    | [b2, b3] =>
      if utf8Snd4 b b2 then
        if isContByte b3 then (replChar, []) else (replChar, [b3])
      else (replChar, [b2, b3])
    | [b2] => if utf8Snd4 b b2 then (replChar, []) else (replChar, [b2])
    | [] => (replChar, [])
  else (replChar, t)

/-- Decoding loop; the fuel only makes the recursion structural and is
initialised to the byte count, which always suffices. -/
def utf8DecReplaceAux : Nat → List Nat → Chars
  | _, [] => []
  | 0, _ :: _ => []
  | fuel + 1, b :: t =>
    (utf8DecOne b t).1 :: utf8DecReplaceAux fuel (utf8DecOne b t).2

def utf8DecReplace (bs : List Nat) : Chars := utf8DecReplaceAux bs.length bs

theorem utf8DecOne_rest_le (b : Nat) (t : List Nat) :
    (utf8DecOne b t).2.length ≤ t.length := by
  unfold utf8DecOne
  rcases t with _ | ⟨b2, _ | ⟨b3, _ | ⟨b4, t4⟩⟩⟩ <;> split_ifs <;> (try simp) <;>
    (try split_ifs) <;> (try simp) <;> omega

theorem utf8DecReplaceAux_fuelIrrel (f1 : Nat) :
    ∀ (f2 : Nat) (bs : List Nat), bs.length ≤ f1 → bs.length ≤ f2 →
      utf8DecReplaceAux f1 bs = utf8DecReplaceAux f2 bs := by
  induction f1 with
  | zero =>
    intro f2 bs h1 _
    have : bs = [] := List.length_eq_zero.mp (Nat.le_zero.mp h1)
    subst this
    cases f2 <;> rfl
  | succ g1 ih =>
    intro f2 bs h1 h2
    cases bs with
    | nil => cases f2 <;> rfl
    | cons b t =>
      cases f2 with
      | zero => simp at h2
      | succ g2 =>
        rw [utf8DecReplaceAux, utf8DecReplaceAux]
        have hr := utf8DecOne_rest_le b t
        simp at h1 h2
        rw [ih g2 _ (by omega) (by omega)]

theorem char_valid_nat (c : Char) :
    c.toNat < 0xD800 ∨ (0xDFFF < c.toNat ∧ c.toNat < 0x110000) := by
  have h := c.valid
  unfold UInt32.isValidChar Nat.isValidChar at h
  exact h

theorem utf8DecReplace_encChar (c : Char) (r : List Nat) :
    utf8DecReplace (utf8EncChar c ++ r) = c :: utf8DecReplace r := by
  have hv := char_valid_nat c
  unfold utf8EncChar
  by_cases h1 : c.toNat < 0x80
  · rw [if_pos h1]
    have hone : utf8DecOne c.toNat r = (Char.ofNat c.toNat, r) := by
      simp only [utf8DecOne]
      rw [if_pos h1]
    show utf8DecReplaceAux (c.toNat :: r).length (c.toNat :: r) = _
    rw [List.length_cons, utf8DecReplaceAux, hone, Char.ofNat_toNat]
    rfl
  · rw [if_neg h1]
    by_cases h2 : c.toNat < 0x800
    · rw [if_pos h2]
      have hone : utf8DecOne (0xC0 + c.toNat / 64) ((0x80 + c.toNat % 64) :: r) =
          (Char.ofNat ((0xC0 + c.toNat / 64 - 0xC0) * 64 +
            (0x80 + c.toNat % 64 - 0x80)), r) := by
        simp only [utf8DecOne]
        rw [if_neg (by omega), if_pos (by simp; omega),
          if_pos (by simp [isContByte]; omega)]
      have harg : (0xC0 + c.toNat / 64 - 0xC0) * 64 + (0x80 + c.toNat % 64 - 0x80) =
          c.toNat := by omega
      show utf8DecReplaceAux
          ((0xC0 + c.toNat / 64) :: (0x80 + c.toNat % 64) :: r).length
          ((0xC0 + c.toNat / 64) :: (0x80 + c.toNat % 64) :: r) = _
      rw [List.length_cons, List.length_cons, utf8DecReplaceAux, hone, harg,
        Char.ofNat_toNat]
      show c :: utf8DecReplaceAux (r.length + 1) r = c :: utf8DecReplace r
      rw [utf8DecReplaceAux_fuelIrrel (r.length + 1) r.length r (by omega) (by omega)]
      rfl
    · rw [if_neg h2]
      by_cases h3 : c.toNat < 0x10000
      · rw [if_pos h3]
        have hsnd : utf8Snd3 (0xE0 + c.toNat / 4096) (0x80 + c.toNat / 64 % 64) =
            true := by
          unfold utf8Snd3
          split_ifs with hb1 hb2 <;> simp [isContByte] <;> omega
        have h3rd : isContByte (0x80 + c.toNat % 64) = true := by
          simp [isContByte]; omega
        have hone : utf8DecOne (0xE0 + c.toNat / 4096)
            ((0x80 + c.toNat / 64 % 64) :: (0x80 + c.toNat % 64) :: r) =
            (Char.ofNat ((0xE0 + c.toNat / 4096 - 0xE0) * 4096 +
              (0x80 + c.toNat / 64 % 64 - 0x80) * 64 +
              (0x80 + c.toNat % 64 - 0x80)), r) := by
          simp only [utf8DecOne]
          rw [if_neg (by omega), if_neg (by simp; omega), if_pos (by simp; omega),
            if_pos hsnd, if_pos h3rd]
        have harg : (0xE0 + c.toNat / 4096 - 0xE0) * 4096 +
            (0x80 + c.toNat / 64 % 64 - 0x80) * 64 + (0x80 + c.toNat % 64 - 0x80) =
            c.toNat := by omega
        show utf8DecReplaceAux ((0xE0 + c.toNat / 4096) ::
            (0x80 + c.toNat / 64 % 64) :: (0x80 + c.toNat % 64) :: r).length
            ((0xE0 + c.toNat / 4096) ::
              (0x80 + c.toNat / 64 % 64) :: (0x80 + c.toNat % 64) :: r) = _
        rw [List.length_cons, List.length_cons, List.length_cons,
          utf8DecReplaceAux, hone, harg, Char.ofNat_toNat]
        show c :: utf8DecReplaceAux (r.length + 2) r = c :: utf8DecReplace r
        rw [utf8DecReplaceAux_fuelIrrel (r.length + 2) r.length r (by omega)
          (by omega)]
        rfl
      · rw [if_neg h3]
        have hsnd : utf8Snd4 (0xF0 + c.toNat / 262144)
            (0x80 + c.toNat / 4096 % 64) = true := by
          unfold utf8Snd4
          split_ifs with hb1 hb2 <;> simp [isContByte] <;> omega
        have h3rd : isContByte (0x80 + c.toNat / 64 % 64) = true := by
          simp [isContByte]; omega
        have h4th : isContByte (0x80 + c.toNat % 64) = true := by
          simp [isContByte]; omega
        have hone : utf8DecOne (0xF0 + c.toNat / 262144)
            ((0x80 + c.toNat / 4096 % 64) :: (0x80 + c.toNat / 64 % 64) ::
              (0x80 + c.toNat % 64) :: r) =
            (Char.ofNat ((0xF0 + c.toNat / 262144 - 0xF0) * 262144 +
              (0x80 + c.toNat / 4096 % 64 - 0x80) * 4096 +
              (0x80 + c.toNat / 64 % 64 - 0x80) * 64 +
              (0x80 + c.toNat % 64 - 0x80)), r) := by
          simp only [utf8DecOne]
          rw [if_neg (by omega), if_neg (by simp; omega), if_neg (by simp; omega),
            if_pos (by simp; omega), if_pos hsnd, if_pos h3rd, if_pos h4th]
        have harg : (0xF0 + c.toNat / 262144 - 0xF0) * 262144 +
            (0x80 + c.toNat / 4096 % 64 - 0x80) * 4096 +
            (0x80 + c.toNat / 64 % 64 - 0x80) * 64 + (0x80 + c.toNat % 64 - 0x80) =
            c.toNat := by omega
        show utf8DecReplaceAux ((0xF0 + c.toNat / 262144) ::
            (0x80 + c.toNat / 4096 % 64) :: (0x80 + c.toNat / 64 % 64) ::
            (0x80 + c.toNat % 64) :: r).length
            ((0xF0 + c.toNat / 262144) ::
              (0x80 + c.toNat / 4096 % 64) :: (0x80 + c.toNat / 64 % 64) ::
              (0x80 + c.toNat % 64) :: r) = _
        rw [List.length_cons, List.length_cons, List.length_cons, List.length_cons,
          utf8DecReplaceAux, hone, harg, Char.ofNat_toNat]
        show c :: utf8DecReplaceAux (r.length + 3) r = c :: utf8DecReplace r
        rw [utf8DecReplaceAux_fuelIrrel (r.length + 3) r.length r (by omega)
          (by omega)]
        rfl

theorem utf8DecReplace_utf8Enc (l : Chars) : utf8DecReplace (utf8Enc l) = l := by
  induction l with
  | nil => rfl
  | cons c t ih =>
    show utf8DecReplace (utf8EncChar c ++ utf8Enc t) = _
    rw [utf8DecReplace_encChar, ih]

example : utf8Enc "aη語".toList = [97, 0xCE, 0xB7, 0xE8, 0xAA, 0x9E] := by decide
example : utf8DecReplace [97, 0xCE, 0xB7, 0xE8, 0xAA, 0x9E] = "aη語".toList := by
  decide

theorem charToNat_ofNat (n : Nat) (h : n.isValidChar) : (Char.ofNat n).toNat = n := by
  unfold Char.ofNat
  rw [dif_pos h]
  unfold Char.ofNatAux Char.toNat
  simp [UInt32.toNat, BitVec.toNat_ofNatLt]

theorem utf8EncChar_ne_nil (c : Char) : utf8EncChar c ≠ [] := by
  unfold utf8EncChar
  simp only []
  split_ifs <;> simp

theorem utf8EncChar_lt256 (c : Char) : ∀ b ∈ utf8EncChar c, b < 256 := by
  have hv := char_valid_nat c
  unfold utf8EncChar
  simp only []
  split_ifs <;> intro b hb <;> simp at hb <;> omega

theorem utf8EncChar_ascii (c : Char) (h : c.toNat < 128) :
    utf8EncChar c = [c.toNat] := by
  unfold utf8EncChar
  rw [if_pos h]

/-! Percent-encoding: `urllib.parse.quote`/`quote_plus` with `safe=\'\'`
(as `urlencode` calls them) and `unquote`/`unquote_plus` (as `parse_qsl`
calls them). -/

/-- The always-safe characters of `urllib.parse.quote`: ASCII
alphanumerics and `_.-~`. -/
def quoteSafe (c : Char) : Bool :=
  (65 ≤ c.toNat && c.toNat ≤ 90) || (97 ≤ c.toNat && c.toNat ≤ 122) ||
  (48 ≤ c.toNat && c.toNat ≤ 57) || c = '_' || c = '.' || c = '-' || c = '~'

/-- One uppercase hexadecimal digit, as `quote` emits (`%{:02X}`). -/
def hexDigitUpper (n : Nat) : Char :=
  Char.ofNat (if n < 10 then 48 + n else 55 + n)

def pctEncByte (b : Nat) : Chars := ['%', hexDigitUpper (b / 16), hexDigitUpper (b % 16)]

/-- `quote(c, safe='')` for one character: safe characters pass through,
anything else is the percent-encoding of its UTF-8 bytes. -/
def quoteChar (c : Char) : Chars :=
  if quoteSafe c then [c] else (utf8EncChar c).flatMap pctEncByte

def pyQuote (s : Chars) : Chars := s.flatMap quoteChar

/-- `quote(c, safe=' ')` for one character (the intermediate step of
`quote_plus` on strings containing a space). -/
def quoteCharSp (c : Char) : Chars :=
  if quoteSafe c || c = ' ' then [c] else (utf8EncChar c).flatMap pctEncByte

def pyQuoteSp (s : Chars) : Chars := s.flatMap quoteCharSp

/-- `quote_plus(s)` with `safe=''`: if the string contains a space,
quote with space kept safe and then turn spaces into `+`; otherwise
plain `quote`. -/
def quote_plus (s : Chars) : Chars :=
  if ' ' ∈ s then (pyQuoteSp s).map (fun c => if c = ' ' then '+' else c)
  else pyQuote s

def isHexDigitC (c : Char) : Bool :=
  (48 ≤ c.toNat && c.toNat ≤ 57) || (97 ≤ c.toNat && c.toNat ≤ 102) ||
  (65 ≤ c.toNat && c.toNat ≤ 70)

def hexVal (c : Char) : Nat :=
  if 48 ≤ c.toNat && c.toNat ≤ 57 then c.toNat - 48
  else if 97 ≤ c.toNat && c.toNat ≤ 102 then c.toNat - 87
  else c.toNat - 55

/-- `urllib.parse.unquote_to_bytes` on one ASCII run, one step: a
literal character contributes its code, `%` followed by two hex digits
becomes one byte, and a `%` not followed by two hex digits stays a
literal `%` (code 37).  Returns the produced bytes and the rest. -/
def pctStep (c : Char) (t : Chars) : List Nat × Chars :=
  if c = '%' then
    match t with
    | a :: b :: t2 =>
      if isHexDigitC a && isHexDigitC b then ([16 * hexVal a + hexVal b], t2)
      else ([37], a :: b :: t2)
    | l => ([37], l)
  else ([c.toNat], t)

def pctDecodeBytesAux : Nat → Chars → List Nat
  | _, [] => []
  | 0, _ :: _ => []
  | fuel + 1, c :: t => (pctStep c t).1 ++ pctDecodeBytesAux fuel (pctStep c t).2

def pctDecodeBytes (l : Chars) : List Nat := pctDecodeBytesAux l.length l

theorem pctStep_rest_le (c : Char) (t : Chars) :
    (pctStep c t).2.length ≤ t.length := by
  unfold pctStep
  rcases t with _ | ⟨a, _ | ⟨b, t2⟩⟩ <;> split_ifs <;> (try simp) <;>
    (try split_ifs) <;> (try simp) <;> omega

theorem pctDecodeBytesAux_nil (fuel : Nat) : pctDecodeBytesAux fuel [] = [] := by
  cases fuel <;> rfl

theorem pctDecodeBytesAux_fuelIrrel (f1 : Nat) :
    ∀ (f2 : Nat) (l : Chars), l.length ≤ f1 → l.length ≤ f2 →
      pctDecodeBytesAux f1 l = pctDecodeBytesAux f2 l := by
  induction f1 with
  | zero =>
    intro f2 l h1 _
    have : l = [] := List.length_eq_zero.mp (Nat.le_zero.mp h1)
    subst this
    cases f2 <;> rfl
  | succ g1 ih =>
    intro f2 l h1 h2
    cases l with
    | nil => cases f2 <;> rfl
    | cons c t =>
      cases f2 with
      | zero => simp at h2
      | succ g2 =>
        rw [pctDecodeBytesAux, pctDecodeBytesAux]
        have hr := pctStep_rest_le c t
        simp at h1 h2
        rw [ih g2 _ (by omega) (by omega)]

/-- `unquote(s, errors="replace")` processing loop: maximal ASCII runs
are percent-decoded to bytes and UTF-8-decoded with replacement,
non-ASCII characters pass through unchanged (CPython splits the string
with `_asciire` and byte-decodes only the ASCII pieces).  The fuel is
initialised to the length and only makes the recursion structural. -/
def unquoteAux : Nat → Chars → Chars
  | _, [] => []
  | 0, l => l
  | fuel + 1, c :: t =>
    if c.toNat < 128 then
      utf8DecReplace (pctDecodeBytes ((c :: t).takeWhile (fun x => x.toNat < 128))) ++
        unquoteAux fuel ((c :: t).dropWhile (fun x => x.toNat < 128))
    else c :: unquoteAux fuel t

/-- `unquote(s, errors="replace")`: a string without `%` is returned
unchanged, otherwise the run decoder applies. -/
def pyUnquote (l : Chars) : Chars :=
  if l.contains '%' then unquoteAux l.length l else l

def plusToSpace (l : Chars) : Chars := l.map (fun c => if c = '+' then ' ' else c)

/-- `unquote_plus(s)`: replace `+` by a space, then `unquote`. -/
def unquote_plus (l : Chars) : Chars := pyUnquote (plusToSpace l)

example : quote_plus "a b/語".toList = "a+b%2F%E8%AA%9E".toList := by decide
example : unquote_plus "a+b%2F%E8%AA%9E".toList = "a b/語".toList := by decide

theorem quoteSafe_toNat (c : Char) (h : quoteSafe c = true) :
    (65 ≤ c.toNat ∧ c.toNat ≤ 90) ∨ (97 ≤ c.toNat ∧ c.toNat ≤ 122) ∨
    (48 ≤ c.toNat ∧ c.toNat ≤ 57) ∨ c.toNat = 95 ∨ c.toNat = 46 ∨
    c.toNat = 45 ∨ c.toNat = 126 := by
  simp [quoteSafe] at h
  rcases h with ((((((h | h) | h) | h) | h) | h) | h)
  · exact Or.inl h
  · exact Or.inr (Or.inl h)
  · exact Or.inr (Or.inr (Or.inl h))
  · subst h; decide
  · subst h; decide
  · subst h; decide
  · subst h; decide

theorem quoteSafe_lt128 (c : Char) (h : quoteSafe c = true) : c.toNat < 128 := by
  rcases quoteSafe_toNat c h with h | h | h | h | h | h | h <;> omega

/-- A safe character differs from any fixed unsafe character. -/
theorem quoteSafe_ne (c : Char) (h : quoteSafe c = true) (x : Char)
    (hx : quoteSafe x = false) : c ≠ x := by
  intro he
  subst he
  rw [h] at hx
  cases hx

theorem hexDigitUpper_toNat (n : Nat) (h : n < 16) :
    (hexDigitUpper n).toNat = if n < 10 then 48 + n else 55 + n := by
  interval_cases n <;> decide

theorem quoteSafe_hexDigitUpper (n : Nat) (h : n < 16) :
    quoteSafe (hexDigitUpper n) = true := by
  interval_cases n <;> decide

theorem isHexDigitC_hexDigitUpper (n : Nat) (h : n < 16) :
    isHexDigitC (hexDigitUpper n) = true := by
  interval_cases n <;> decide

theorem hexVal_hexDigitUpper (n : Nat) (h : n < 16) :
    hexVal (hexDigitUpper n) = n := by
  interval_cases n <;> decide

theorem mem_quoteChar (c x : Char) (hx : x ∈ quoteChar c) :
    quoteSafe x = true ∨ x = '%' := by
  unfold quoteChar at hx
  split_ifs at hx with hs
  · simp at hx
    subst hx
    exact Or.inl hs
  · rw [List.mem_flatMap] at hx
    obtain ⟨b, hb, hxb⟩ := hx
    have hb256 := utf8EncChar_lt256 c b hb
    unfold pctEncByte at hxb
    simp at hxb
    rcases hxb with h | h | h
    · exact Or.inr h
    · exact Or.inl (h ▸ quoteSafe_hexDigitUpper _ (by omega))
    · exact Or.inl (h ▸ quoteSafe_hexDigitUpper _ (by omega))

theorem mem_quoteCharSp (c x : Char) (hx : x ∈ quoteCharSp c) :
    quoteSafe x = true ∨ x = '%' ∨ x = ' ' := by
  unfold quoteCharSp at hx
  split_ifs at hx with hs
  · simp at hx
    subst hx
    simp at hs
    rcases hs with hs | hs
    · exact Or.inl hs
    · exact Or.inr (Or.inr hs)
  · have : x ∈ quoteChar c := by
      unfold quoteChar
      rw [if_neg (by simp at hs; simp [hs.1])]
      exact hx
    rcases mem_quoteChar c x this with h | h
    · exact Or.inl h
    · exact Or.inr (Or.inl h)

theorem mem_quote_plus (s : Chars) (x : Char) (hx : x ∈ quote_plus s) :
    quoteSafe x = true ∨ x = '%' ∨ x = '+' := by
  unfold quote_plus at hx
  split_ifs at hx with hs
  · rw [List.mem_map] at hx
    obtain ⟨y, hy, hxy⟩ := hx
    unfold pyQuoteSp at hy
    rw [List.mem_flatMap] at hy
    obtain ⟨c, _, hyc⟩ := hy
    rcases mem_quoteCharSp c y hyc with h | h | h
    · have : y ≠ ' ' := quoteSafe_ne y h ' ' (by decide)
      rw [if_neg this] at hxy
      exact Or.inl (hxy ▸ h)
    · subst h
      rw [if_neg (by decide)] at hxy
      exact Or.inr (Or.inl hxy.symm)
    · subst h
      rw [if_pos rfl] at hxy
      exact Or.inr (Or.inr hxy.symm)
  · unfold pyQuote at hx
    rw [List.mem_flatMap] at hx
    obtain ⟨c, _, hyc⟩ := hx
    rcases mem_quoteChar c x hyc with h | h
    · exact Or.inl h
    · exact Or.inr (Or.inl h)

theorem flatMap_congr_mem {α β : Type} (l : List α) (f g : α → List β)
    (h : ∀ a ∈ l, f a = g a) : l.flatMap f = l.flatMap g := by
  induction l with
  | nil => rfl
  | cons a t ih =>
    simp only [List.flatMap_cons]
    rw [h a (by simp), ih (fun x hx => h x (List.mem_cons_of_mem _ hx))]

theorem plusToSpace_quote_plus (s : Chars) :
    plusToSpace (quote_plus s) = pyQuoteSp s := by
  unfold quote_plus
  split_ifs with hs
  · unfold plusToSpace
    rw [List.map_map]
    have : ∀ x ∈ pyQuoteSp s,
        ((fun c => if c = '+' then ' ' else c) ∘ fun c => if c = ' ' then '+' else c) x
          = x := by
      intro x hx
      unfold pyQuoteSp at hx
      rw [List.mem_flatMap] at hx
      obtain ⟨c, _, hxc⟩ := hx
      rcases mem_quoteCharSp c x hxc with h | h | h
      · have h1 : x ≠ ' ' := quoteSafe_ne x h ' ' (by decide)
        have h2 : x ≠ '+' := quoteSafe_ne x h '+' (by decide)
        simp [h1, h2]
      · subst h
        simp
      · subst h
        simp
    calc (pyQuoteSp s).map _ = (pyQuoteSp s).map id := List.map_congr_left this
    _ = pyQuoteSp s := List.map_id _
  · have hq : pyQuote s = pyQuoteSp s := by
      unfold pyQuote pyQuoteSp
      apply flatMap_congr_mem
      intro c hc
      have hcs : ¬ c = ' ' := fun he => hs (he ▸ hc)
      unfold quoteChar quoteCharSp
      simp [hcs]
    rw [hq]
    unfold plusToSpace
    have : ∀ x ∈ pyQuoteSp s, (fun c => if c = '+' then ' ' else c) x = x := by
      intro x hx
      unfold pyQuoteSp at hx
      rw [List.mem_flatMap] at hx
      obtain ⟨c, _, hxc⟩ := hx
      rcases mem_quoteCharSp c x hxc with h | h | h
      · simp [quoteSafe_ne x h '+' (by decide)]
      · subst h; simp
      · subst h; simp
    calc (pyQuoteSp s).map _ = (pyQuoteSp s).map id := List.map_congr_left this
    _ = pyQuoteSp s := List.map_id _

theorem pctDecodeBytes_pctEncByte (b : Nat) (hb : b < 256) (r : Chars) :
    pctDecodeBytes (pctEncByte b ++ r) = b :: pctDecodeBytes r := by
  have hstep : pctStep '%' (hexDigitUpper (b / 16) :: hexDigitUpper (b % 16) :: r)
      = ([b], r) := by
    have h1 := isHexDigitC_hexDigitUpper (b / 16) (by omega)
    have h2 := isHexDigitC_hexDigitUpper (b % 16) (by omega)
    have h3 := hexVal_hexDigitUpper (b / 16) (by omega)
    have h4 := hexVal_hexDigitUpper (b % 16) (by omega)
    simp [pctStep, h1, h2, h3, h4] <;> omega
  show pctDecodeBytesAux
      ('%' :: hexDigitUpper (b / 16) :: hexDigitUpper (b % 16) :: r).length
      ('%' :: hexDigitUpper (b / 16) :: hexDigitUpper (b % 16) :: r) = _
  rw [List.length_cons, List.length_cons, List.length_cons, pctDecodeBytesAux,
    hstep]
  show b :: pctDecodeBytesAux (r.length + 1 + 1) r = _
  rw [pctDecodeBytesAux_fuelIrrel (r.length + 1 + 1) r.length r (by omega) (by omega)]
  rfl

theorem pctDecodeBytes_encList (bytes : List Nat) (h : ∀ b ∈ bytes, b < 256)
    (r : Chars) :
    pctDecodeBytes (bytes.flatMap pctEncByte ++ r) = bytes ++ pctDecodeBytes r := by
  induction bytes with
  | nil => rfl
  | cons b t ih =>
    simp only [List.flatMap_cons, List.append_assoc, List.cons_append]
    rw [pctDecodeBytes_pctEncByte b (h b (by simp)) _,
      ih (fun x hx => h x (List.mem_cons_of_mem _ hx))]

theorem pctDecodeBytes_cons_plain (c : Char) (hne : ¬ c = '%') (r : Chars) :
    pctDecodeBytes (c :: r) = c.toNat :: pctDecodeBytes r := by
  have hstep : pctStep c r = ([c.toNat], r) := by
    simp only [pctStep]
    rw [if_neg hne]
  show pctDecodeBytesAux (c :: r).length (c :: r) = _
  rw [List.length_cons, pctDecodeBytesAux, hstep]
  rfl

theorem pctDecodeBytes_quoteCharSp (c : Char) (r : Chars) :
    pctDecodeBytes (quoteCharSp c ++ r) = utf8EncChar c ++ pctDecodeBytes r := by
  unfold quoteCharSp
  split_ifs with hs
  · have hne : ¬ c = '%' := by
      rcases (by simpa using hs : quoteSafe c = true ∨ c = ' ') with h | h
      · exact quoteSafe_ne c h '%' (by decide)
      · subst h; decide
    have hlt : c.toNat < 128 := by
      rcases (by simpa using hs : quoteSafe c = true ∨ c = ' ') with h | h
      · exact quoteSafe_lt128 c h
      · subst h; decide
    show pctDecodeBytes (c :: r) = _
    rw [pctDecodeBytes_cons_plain c hne, utf8EncChar_ascii c hlt]
    rfl
  · exact pctDecodeBytes_encList _ (utf8EncChar_lt256 c) r

theorem pctDecodeBytes_pyQuoteSp_append (s : Chars) (r : Chars) :
    pctDecodeBytes (pyQuoteSp s ++ r) = utf8Enc s ++ pctDecodeBytes r := by
  induction s with
  | nil => rfl
  | cons c t ih =>
    show pctDecodeBytes ((quoteCharSp c ++ pyQuoteSp t) ++ r) = _
    rw [List.append_assoc, pctDecodeBytes_quoteCharSp, ih]
    rw [show utf8Enc (c :: t) = utf8EncChar c ++ utf8Enc t by
      simp [utf8Enc], List.append_assoc]

theorem unquoteAux_nil (fuel : Nat) : unquoteAux fuel [] = [] := by
  cases fuel <;> rfl

theorem unquoteAux_ascii (fuel : Nat) (l : Chars) (hf : l.length ≤ fuel)
    (h : ∀ c ∈ l, c.toNat < 128) :
    unquoteAux fuel l = utf8DecReplace (pctDecodeBytes l) := by
  cases l with
  | nil =>
    rw [unquoteAux_nil]
    rfl
  | cons c t =>
    cases fuel with
    | zero => simp at hf
    | succ g =>
      rw [unquoteAux, if_pos (h c (by simp))]
      rw [List.takeWhile_eq_self_iff.mpr (by intro x hx; simpa using h x hx)]
      rw [List.dropWhile_eq_nil_iff.mpr (by intro x hx; simpa using h x hx)]
      rw [unquoteAux_nil, List.append_nil]

theorem pyUnquote_pyQuoteSp (s : Chars) : pyUnquote (pyQuoteSp s) = s := by
  unfold pyUnquote
  split_ifs with hc
  · have hascii : ∀ c ∈ pyQuoteSp s, c.toNat < 128 := by
      intro x hx
      unfold pyQuoteSp at hx
      rw [List.mem_flatMap] at hx
      obtain ⟨c, _, hxc⟩ := hx
      rcases mem_quoteCharSp c x hxc with h | h | h
      · exact quoteSafe_lt128 x h
      · subst h; decide
      · subst h; decide
    rw [unquoteAux_ascii _ _ (le_refl _) hascii]
    have := pctDecodeBytes_pyQuoteSp_append s []
    rw [List.append_nil] at this
    rw [this]
    show utf8DecReplace (utf8Enc s ++ pctDecodeBytes []) = s
    rw [show pctDecodeBytes [] = [] from rfl, List.append_nil,
      utf8DecReplace_utf8Enc]
  · have hnp : ('%' : Char) ∉ pyQuoteSp s := by
      intro hm
      exact hc (List.elem_iff.mpr hm)
    have hsingle : ∀ c ∈ s, quoteCharSp c = [c] := by
      intro c hcm
      unfold quoteCharSp
      split_ifs with hs
      · rfl
      · exfalso
        apply hnp
        unfold pyQuoteSp
        rw [List.mem_flatMap]
        refine ⟨c, hcm, ?_⟩
        unfold quoteCharSp
        rw [if_neg hs]
        obtain ⟨b, hb⟩ : ∃ b t, utf8EncChar c = b :: t := by
          cases hh : utf8EncChar c with
          | nil => exact absurd hh (utf8EncChar_ne_nil c)
          | cons b t => exact ⟨b, t, rfl⟩
        obtain ⟨t, ht⟩ := hb
        rw [List.mem_flatMap]
        exact ⟨b, by rw [ht]; simp, by unfold pctEncByte; simp⟩
    clear hc hnp
    induction s with
    | nil => rfl
    | cons c t ih =>
      show quoteCharSp c ++ pyQuoteSp t = c :: t
      rw [hsingle c (by simp), ih (fun x hx => hsingle x (List.mem_cons_of_mem _ hx))]
      rfl

/-- Round trip: `unquote_plus(quote_plus(s)) = s` for every string. -/
theorem unquote_plus_quote_plus (s : Chars) : unquote_plus (quote_plus s) = s := by
  unfold unquote_plus
  rw [plusToSpace_quote_plus, pyUnquote_pyQuoteSp]

/-! `parse_qsl` and `urlencode`, as `canonical_url` uses them. -/

/-- `urllib.parse.parse_qsl(qs, keep_blank_values=True)`: split on `&`,
skip empty chunks, split each chunk at its first `=` (a chunk without
`=` keeps an empty value because of `keep_blank_values`), then
`unquote_plus` names and values. -/
def parse_qsl_kb (qs : Chars) : List (Chars × Chars) :=
  (qs.splitOn '&').foldr
    (fun nv acc =>
      if nv = [] then acc
      else
        let k := nv.takeWhile (fun c => c ≠ '=')
        let v := if k.length < nv.length then nv.drop (k.length + 1) else []
        (unquote_plus k, unquote_plus v) :: acc)
    []

/-- `urllib.parse.urlencode(pairs, doseq=True)` on string pairs, with the
default `quote_via=quote_plus` and `safe=''`. -/
def urlencode (ps : List (Chars × Chars)) : Chars :=
  List.intercalate ['&'] (ps.map (fun kv => quote_plus kv.1 ++ '=' :: quote_plus kv.2))

example : parse_qsl_kb "a=1&b=%20x&c".toList =
    [("a".toList, "1".toList), ("b".toList, " x".toList), ("c".toList, [])] := by
  decide
example : urlencode [("a".toList, "1 2".toList), ("c".toList, [])] =
    "a=1+2&c=".toList := by decide

theorem takeWhile_append_stop (p : Char → Bool) (a : Chars) (b : Char) (c : Chars)
    (ha : ∀ x ∈ a, p x = true) (hb : p b = false) :
    (a ++ b :: c).takeWhile p = a := by
  induction a with
  | nil => simp [List.takeWhile, hb]
  | cons x t ih =>
    have hx := ha x (by simp)
    simp only [List.cons_append, List.takeWhile, hx]
    exact congrArg (x :: ·) (ih fun y hy => ha y (List.mem_cons_of_mem _ hy))

theorem urlencode_nil : urlencode [] = [] := rfl

theorem urlencode_single (kv : Chars × Chars) :
    urlencode [kv] = quote_plus kv.1 ++ '=' :: quote_plus kv.2 := by
  simp [urlencode, List.intercalate]

theorem urlencode_cons₂ (kv kv2 : Chars × Chars) (t2 : List (Chars × Chars)) :
    urlencode (kv :: kv2 :: t2) =
      (quote_plus kv.1 ++ '=' :: quote_plus kv.2) ++ '&' :: urlencode (kv2 :: t2) := by
  simp [urlencode, List.intercalate, List.intersperse]

theorem mem_seg (kv : Chars × Chars) (x : Char)
    (hx : x ∈ quote_plus kv.1 ++ '=' :: quote_plus kv.2) :
    quoteSafe x = true ∨ x = '%' ∨ x = '+' ∨ x = '&' ∨ x = '=' := by
  simp at hx
  rcases hx with hx | hx | hx
  · rcases mem_quote_plus _ _ hx with h | h | h
    · exact Or.inl h
    · exact Or.inr (Or.inl h)
    · exact Or.inr (Or.inr (Or.inl h))
  · exact Or.inr (Or.inr (Or.inr (Or.inr hx)))
  · rcases mem_quote_plus _ _ hx with h | h | h
    · exact Or.inl h
    · exact Or.inr (Or.inl h)
    · exact Or.inr (Or.inr (Or.inl h))

theorem mem_urlencode (ps : List (Chars × Chars)) (x : Char) (hx : x ∈ urlencode ps) :
    quoteSafe x = true ∨ x = '%' ∨ x = '+' ∨ x = '&' ∨ x = '=' := by
  induction ps with
  | nil => rw [urlencode_nil] at hx; cases hx
  | cons kv t ih =>
    cases t with
    | nil =>
      rw [urlencode_single] at hx
      exact mem_seg kv x hx
    | cons kv2 t2 =>
      rw [urlencode_cons₂] at hx
      rw [List.mem_append] at hx
      rcases hx with hx | hx
      · exact mem_seg kv x hx
      · rw [List.mem_cons] at hx
        rcases hx with hx | hx
        · exact Or.inr (Or.inr (Or.inr (Or.inl hx)))
        · exact ih hx

theorem quote_plus_no_eq_amp (s : Chars) :
    ('=' ∉ quote_plus s) ∧ ('&' ∉ quote_plus s) := by
  constructor <;> intro hm <;>
    rcases mem_quote_plus s _ hm with h | h | h <;> cases h

theorem parse_qsl_fold (l : List (Chars × Chars)) :
    List.foldr
      (fun nv acc =>
        if nv = [] then acc
        else
          (unquote_plus (nv.takeWhile (fun c => c ≠ '=')),
            unquote_plus
              (if (nv.takeWhile (fun c => c ≠ '=')).length < nv.length then
                nv.drop ((nv.takeWhile (fun c => c ≠ '=')).length + 1)
              else [])) :: acc)
      []
      (l.map (fun kv => quote_plus kv.1 ++ '=' :: quote_plus kv.2)) = l := by
  induction l with
  | nil => rfl
  | cons kv t ih =>
    rw [List.map_cons, List.foldr_cons, ih]
    have hne : ¬ (quote_plus kv.1 ++ '=' :: quote_plus kv.2) = [] := by simp
    rw [if_neg hne]
    have hk : (quote_plus kv.1 ++ '=' :: quote_plus kv.2).takeWhile
        (fun c => c ≠ '=') = quote_plus kv.1 := by
      apply takeWhile_append_stop
      · intro y hy
        simp only [decide_eq_true_eq, ne_eq, decide_not]
        simp
        intro he
        exact (quote_plus_no_eq_amp kv.1).1 (he ▸ hy)
      · simp
    rw [hk]
    have hlen : (quote_plus kv.1).length <
        (quote_plus kv.1 ++ '=' :: quote_plus kv.2).length := by
      simp
    rw [if_pos hlen]
    have hv : (quote_plus kv.1 ++ '=' :: quote_plus kv.2).drop
        ((quote_plus kv.1).length + 1) = quote_plus kv.2 := by
      rw [show (quote_plus kv.1 ++ '=' :: quote_plus kv.2) =
        (quote_plus kv.1 ++ ['=']) ++ quote_plus kv.2 by simp]
      rw [show (quote_plus kv.1).length + 1 = (quote_plus kv.1 ++ ['=']).length by
        simp]
      exact List.drop_left _ _
    rw [hv, unquote_plus_quote_plus, unquote_plus_quote_plus]

/-- Round trip: `parse_qsl(urlencode(ps), keep_blank_values=True) = ps`. -/
theorem parse_qsl_kb_urlencode (ps : List (Chars × Chars)) :
    parse_qsl_kb (urlencode ps) = ps := by
  cases ps with
  | nil => rfl
  | cons kv0 t0 =>
    unfold parse_qsl_kb urlencode
    rw [List.splitOn_intercalate _ '&' ?hsep ?hne]
    case hne => simp
    case hsep =>
      intro l hl
      rw [List.mem_map] at hl
      obtain ⟨kv, _, hkv⟩ := hl
      subst hkv
      intro hm
      simp at hm
      rcases hm with hm | hm
      · exact (quote_plus_no_eq_amp kv.1).2 hm
      · exact (quote_plus_no_eq_amp kv.2).2 hm
    exact parse_qsl_fold (kv0 :: t0)

/-! `urlsplit`, `urlunsplit` and `canonical_url`. -/

/-- `_WHATWG_C0_CONTROL_OR_SPACE`: code points up to 0x20. -/
def isC0OrSpace (c : Char) : Bool := c.toNat ≤ 32

/-- `_UNSAFE_URL_BYTES_TO_REMOVE = ["\t", "\r", "\n"]`. -/
def isUnsafeUrlByte (c : Char) : Bool := c = '\t' || c = '\r' || c = '\n'

/-- The cleaning `urlsplit` applies to its input: lstrip of
control-or-space characters, then removal of every tab/CR/LF. -/
def urlsplitClean (l : Chars) : Chars :=
  (l.dropWhile isC0OrSpace).filter (fun c => !isUnsafeUrlByte c)

/-- `scheme_chars` of urllib: ASCII letters, digits and `+-.`. -/
def isSchemeChar (c : Char) : Bool :=
  (65 ≤ c.toNat && c.toNat ≤ 90) || (97 ≤ c.toNat && c.toNat ≤ 122) ||
  (48 ≤ c.toNat && c.toNat ≤ 57) || c = '+' || c = '-' || c = '.'

def isAsciiAlpha (c : Char) : Bool :=
  (65 ≤ c.toNat && c.toNat ≤ 90) || (97 ≤ c.toNat && c.toNat ≤ 122)

/-- `str.lower()` restricted to ASCII (`urlsplit` only lowercases the
scheme, whose characters are checked to be ASCII). -/
def lowerChar (c : Char) : Char :=
  if 65 ≤ c.toNat && c.toNat ≤ 90 then Char.ofNat (c.toNat + 32) else c

def lowerList (l : Chars) : Chars := l.map lowerChar

/-- Scheme detection of `urlsplit`: the part before the first `:` is the
scheme iff the colon exists at a positive index, the first character is
an ASCII letter and every character before the colon is a scheme
character; the scheme is lowercased. -/
def schemeSplit (u : Chars) : Chars × Chars :=
  let pre := u.takeWhile (fun c => c ≠ ':')
  if pre.length < u.length ∧ pre ≠ [] ∧
      isAsciiAlpha (pre.headD ' ') = true ∧ pre.all isSchemeChar = true then
    (lowerList pre, u.drop (pre.length + 1))
  else ([], u)

def netlocDelim (c : Char) : Bool := c = '/' || c = '?' || c = '#'

/-- `_splitnetloc`: when the remainder starts with `//`, the netloc runs
up to the next `/`, `?` or `#`. -/
def netlocSplit (u : Chars) : Chars × Chars :=
  if u.take 2 = ['/', '/'] then
    ((u.drop 2).takeWhile (fun c => !netlocDelim c),
      (u.drop 2).dropWhile (fun c => !netlocDelim c))
  else ([], u)

/-- `urlsplit(url)` with `allow_fragments=True`, returning
`(scheme, netloc, path, query, fragment)`.  The IPv6-bracket and netloc
NFKC checks, which can only raise exceptions, are omitted. -/
def urlsplitM (url0 : Chars) : Chars × Chars × Chars × Chars × Chars :=
  let url1 := urlsplitClean url0
  let sp := schemeSplit url1
  let np := netlocSplit sp.2
  let path0 := np.2.takeWhile (fun c => c ≠ '#')
  let frag := if path0.length < np.2.length then np.2.drop (path0.length + 1) else []
  let path := path0.takeWhile (fun c => c ≠ '?')
  let query := if path.length < path0.length then path0.drop (path.length + 1) else []
  (sp.1, np.1, path, query, frag)

/-- `uses_netloc` from urllib.parse (the truthy test in `urlunsplit`
means the empty entry never fires there). -/
def usesNetloc : List Chars :=
  ["", "ftp", "http", "gopher", "nntp", "telnet", "imap", "wais", "file",
   "mms", "https", "shttp", "snews", "prospero", "rtsp", "rtsps", "rtspu",
   "rsync", "svn", "svn+ssh", "sftp", "nfs", "git", "git+ssh", "ws",
   "wss"].map String.toList

/-- `urlunsplit((scheme, netloc, path, query, fragment))`: the `//` part
is re-added when the netloc is non-empty, or when the scheme is known to
use a netloc and the path does not already start with `//`. -/
def urlunsplitM (scheme netloc path query frag : Chars) : Chars :=
  let url1 :=
    if netloc ≠ [] ∨ (scheme ≠ [] ∧ scheme ∈ usesNetloc ∧ path.take 2 ≠ ['/', '/']) then
      '/' :: '/' :: netloc ++ (if path ≠ [] ∧ path.take 1 ≠ ['/'] then '/' :: path else path)
    else path
  let url2 := if scheme ≠ [] then scheme ++ ':' :: url1 else url1
  let url3 := if query ≠ [] then url2 ++ '?' :: query else url2
  if frag ≠ [] then url3 ++ '#' :: frag else url3

/-- `canonical_url` from monitor_agencies.py: drop the `#` fragment,
split the URL, drop the `area_id` query parameter, re-encode the query
and reassemble with an empty fragment. -/
def canonical_url (url : Chars) : Chars :=
  let u := url.takeWhile (fun c => c ≠ '#')
  let sp := urlsplitM u
  let q := (parse_qsl_kb sp.2.2.2.1).filter (fun kv => kv.1 ≠ "area_id".toList)
  urlunsplitM sp.1 sp.2.1 sp.2.2.1 (urlencode q) []

example : canonical_url "HTTP://Ex.jp/a/b.php?area_id=3&x=1#frag".toList =
    "http://Ex.jp/a/b.php?x=1".toList := by decide
example : canonical_url "http://x.jp/p".toList = "http://x.jp/p".toList := by decide
example : canonical_url "http://x.jp/p?a=1&area_id=9".toList =
    "http://x.jp/p?a=1".toList := by decide
example : canonical_url (canonical_url "  \thttp://x.jp/p?a=%E8%AA%9E+1#z".toList) =
    canonical_url "  \thttp://x.jp/p?a=%E8%AA%9E+1#z".toList := by decide

theorem dropWhile_append_stop (p : Char → Bool) (a : Chars) (b : Char) (c : Chars)
    (ha : ∀ x ∈ a, p x = true) (hb : p b = false) :
    (a ++ b :: c).dropWhile p = b :: c := by
  induction a with
  | nil => simp [List.dropWhile, hb]
  | cons x t ih =>
    have hx := ha x (by simp)
    simp only [List.cons_append, List.dropWhile, hx]
    exact ih fun y hy => ha y (List.mem_cons_of_mem _ hy)

theorem takeWhile_all (p : Char → Bool) (a : Chars) (ha : ∀ x ∈ a, p x = true) :
    a.takeWhile p = a := List.takeWhile_eq_self_iff.mpr ha

theorem dropWhile_all (p : Char → Bool) (a : Chars) (ha : ∀ x ∈ a, p x = true) :
    a.dropWhile p = [] := List.dropWhile_eq_nil_iff.mpr ha

/-- If the stopping character occurs in the first part, `takeWhile` over an
append is decided by the first part. -/
theorem takeWhile_append_of_stop_mem (p : Char → Bool) (a z : Chars)
    (ha : ∃ x ∈ a, p x = false) :
    (a ++ z).takeWhile p = a.takeWhile p := by
  induction a with
  | nil => obtain ⟨x, hx, _⟩ := ha; cases hx
  | cons c t ih =>
    by_cases hc : p c
    · simp only [List.cons_append, List.takeWhile, hc]
      obtain ⟨x, hx, hpx⟩ := ha
      rcases List.mem_cons.mp hx with he | hm
      · subst he; rw [hc] at hpx; cases hpx
      · exact congrArg (c :: ·) (ih ⟨x, hm, hpx⟩)
    · simp only [List.cons_append, List.takeWhile]
      rw [Bool.not_eq_true] at hc
      rw [hc]

theorem takeWhile_cons_of_pos (p : Char → Bool) (c : Char) (t : Chars)
    (hc : p c = true) : (c :: t).takeWhile p = c :: t.takeWhile p := by
  simp [List.takeWhile, hc]

theorem takeWhile_cons_of_neg (p : Char → Bool) (c : Char) (t : Chars)
    (hc : p c = false) : (c :: t).takeWhile p = [] := by
  simp [List.takeWhile, hc]

theorem drop_after_seg (a : Chars) (b : Char) (c : Chars) :
    (a ++ b :: c).drop (a.length + 1) = c := by
  rw [show a ++ b :: c = (a ++ [b]) ++ c by simp,
    show a.length + 1 = (a ++ [b]).length by simp]
  exact List.drop_left _ _

/-- Flattened form of `urlunsplitM` with empty fragment, convenient for
append-based reasoning. -/
theorem urlunsplitM_flat (s n p q : Chars) :
    urlunsplitM s n p q [] =
      (if s ≠ [] then s ++ [':'] else []) ++
        (if n ≠ [] ∨ (s ≠ [] ∧ s ∈ usesNetloc ∧ p.take 2 ≠ ['/', '/']) then
          '/' :: '/' :: n ++
            (if p ≠ [] ∧ p.take 1 ≠ ['/'] then '/' :: p else p)
        else p) ++
        (if q ≠ [] then '?' :: q else []) := by
  unfold urlunsplitM
  simp only [ne_eq, not_true_eq_false, if_neg, ite_not]
  split_ifs <;> simp_all

theorem isC0OrSpace_false_of_gt (c : Char) (h : 32 < c.toNat) :
    isC0OrSpace c = false := by
  simp [isC0OrSpace]; omega

theorem char_ne_of_toNat_ne (c d : Char) (h : c.toNat ≠ d.toNat) : c ≠ d :=
  fun he => h (congrArg Char.toNat he)

theorem isUnsafeUrlByte_false_of_gt (c : Char) (h : 32 < c.toNat) :
    isUnsafeUrlByte c = false := by
  unfold isUnsafeUrlByte
  have h1 : c ≠ '\t' := char_ne_of_toNat_ne _ _ (by
    rw [show ('\t').toNat = 9 from rfl]; omega)
  have h2 : c ≠ '\r' := char_ne_of_toNat_ne _ _ (by
    rw [show ('\r').toNat = 13 from rfl]; omega)
  have h3 : c ≠ '\n' := char_ne_of_toNat_ne _ _ (by
    rw [show ('\n').toNat = 10 from rfl]; omega)
  simp [h1, h2, h3]

theorem isSchemeChar_toNat (c : Char) (h : isSchemeChar c = true) :
    (65 ≤ c.toNat ∧ c.toNat ≤ 90) ∨ (97 ≤ c.toNat ∧ c.toNat ≤ 122) ∨
    (48 ≤ c.toNat ∧ c.toNat ≤ 57) ∨ c.toNat = 43 ∨ c.toNat = 45 ∨
    c.toNat = 46 := by
  simp [isSchemeChar] at h
  rcases h with ((((h | h) | h) | h) | h) | h
  · exact Or.inl h
  · exact Or.inr (Or.inl h)
  · exact Or.inr (Or.inr (Or.inl h))
  · subst h; decide
  · subst h; decide
  · subst h; decide

theorem isSchemeChar_gt32 (c : Char) (h : isSchemeChar c = true) : 32 < c.toNat := by
  rcases isSchemeChar_toNat c h with h | h | h | h | h | h <;> omega

theorem isSchemeChar_ne_colon (c : Char) (h : isSchemeChar c = true) :
    c ≠ ':' := by
  apply char_ne_of_toNat_ne
  rcases isSchemeChar_toNat c h with h | h | h | h | h | h <;>
    (rw [show (':').toNat = 58 from rfl]; omega)

theorem isSchemeChar_ne_hash (c : Char) (h : isSchemeChar c = true) :
    c ≠ '#' := by
  apply char_ne_of_toNat_ne
  rcases isSchemeChar_toNat c h with h | h | h | h | h | h <;>
    (rw [show ('#').toNat = 35 from rfl]; omega)

theorem mem_urlencode_toNat (ps : List (Chars × Chars)) (x : Char)
    (hx : x ∈ urlencode ps) :
    32 < x.toNat ∧ x.toNat ≠ 35 ∧ x.toNat ≠ 47 ∧ x.toNat ≠ 58 ∧ x.toNat ≠ 63 := by
  rcases mem_urlencode ps x hx with h | h | h | h | h
  · rcases quoteSafe_toNat x h with h | h | h | h | h | h | h <;>
      (refine ⟨?_, ?_, ?_, ?_, ?_⟩ <;> omega)
  · subst h; decide
  · subst h; decide
  · subst h; decide
  · subst h; decide

theorem mem_urlencode_ne_hash (ps : List (Chars × Chars)) (x : Char)
    (hx : x ∈ urlencode ps) : x ≠ '#' :=
  char_ne_of_toNat_ne _ _ (by
    rw [show ('#').toNat = 35 from rfl]
    exact (mem_urlencode_toNat ps x hx).2.1)

theorem mem_urlencode_ne_q (ps : List (Chars × Chars)) (x : Char)
    (hx : x ∈ urlencode ps) : x ≠ '?' :=
  char_ne_of_toNat_ne _ _ (by
    rw [show ('?').toNat = 63 from rfl]
    exact (mem_urlencode_toNat ps x hx).2.2.2.2)

theorem mem_urlencode_ne_colon (ps : List (Chars × Chars)) (x : Char)
    (hx : x ∈ urlencode ps) : x ≠ ':' :=
  char_ne_of_toNat_ne _ _ (by
    rw [show (':').toNat = 58 from rfl]
    exact (mem_urlencode_toNat ps x hx).2.2.2.1)

theorem dropWhile_head_false (p : Char → Bool) (l : Chars) (c : Char) (t : Chars)
    (h : l.dropWhile p = c :: t) : p c = false := by
  induction l with
  | nil => cases h
  | cons a b ih =>
    by_cases ha : p a
    · rw [List.dropWhile_cons_of_pos ha] at h
      exact ih h
    · rw [List.dropWhile_cons_of_neg ha] at h
      cases h
      simpa using ha

theorem length_takeWhile_lt_of_mem (p : Char → Bool) (l : Chars) (x : Char)
    (hx : x ∈ l) (hpx : p x = false) :
    (l.takeWhile p).length < l.length := by
  induction l with
  | nil => cases hx
  | cons c t ih =>
    by_cases hc : p c
    · rw [takeWhile_cons_of_pos _ _ _ hc]
      have hxt : x ∈ t := by
        rcases List.mem_cons.mp hx with he | hm
        · subst he; rw [hc] at hpx; cases hpx
        · exact hm
      simpa using ih hxt
    · rw [takeWhile_cons_of_neg _ _ _ (by simpa using hc)]
      simp

theorem mem_urlsplitClean (u : Chars) (x : Char) (hx : x ∈ urlsplitClean u) :
    isUnsafeUrlByte x = false := by
  unfold urlsplitClean at hx
  have := List.mem_filter.mp hx
  simpa using this.2

theorem unsafe_isC0 (c : Char) (h : isUnsafeUrlByte c = true) :
    isC0OrSpace c = true := by
  simp [isUnsafeUrlByte] at h
  rcases h with (h | h) | h <;> subst h <;> decide

theorem urlsplitClean_head (u : Chars) (c : Char) (t : Chars)
    (h : urlsplitClean u = c :: t) : isC0OrSpace c = false := by
  unfold urlsplitClean at h
  cases hd : u.dropWhile isC0OrSpace with
  | nil => rw [hd] at h; cases h
  | cons a t2 =>
    have ha : isC0OrSpace a = false := dropWhile_head_false _ _ _ _ hd
    have hu : isUnsafeUrlByte a = false := by
      cases hua : isUnsafeUrlByte a
      · rfl
      · rw [unsafe_isC0 a hua] at ha; cases ha
    rw [hd] at h
    rw [List.filter_cons_of_pos (by simpa using hu)] at h
    cases h
    exact ha

theorem schemeSplit_snd_mem (v : Chars) (x : Char) (hx : x ∈ (schemeSplit v).2) :
    x ∈ v := by
  simp only [schemeSplit] at hx
  split_ifs at hx
  · exact (List.drop_sublist _ _).mem hx
  · exact hx

theorem schemeSplit_of_fst_nil (v : Chars) (h : (schemeSplit v).1 = []) :
    schemeSplit v = ([], v) := by
  simp only [schemeSplit] at h ⊢
  split_ifs at h ⊢ with hc
  · exfalso
    obtain ⟨-, hne, -, -⟩ := hc
    exact hne (List.map_eq_nil_iff.mp h)
  · rfl

theorem netlocSplit_fst_mem (v : Chars) (x : Char) (hx : x ∈ (netlocSplit v).1) :
    x ∈ v := by
  simp only [netlocSplit] at hx
  split_ifs at hx
  · exact (List.drop_sublist _ _).mem ((List.takeWhile_sublist _).mem hx)
  · cases hx

theorem netlocSplit_snd_mem (v : Chars) (x : Char) (hx : x ∈ (netlocSplit v).2) :
    x ∈ v := by
  simp only [netlocSplit] at hx
  split_ifs at hx
  · exact (List.drop_sublist _ _).mem ((List.dropWhile_sublist _).mem hx)
  · exact hx

theorem urlsplitM_netloc_props (u : Chars) (x : Char)
    (hx : x ∈ (urlsplitM u).2.1) :
    netlocDelim x = false ∧ isUnsafeUrlByte x = false := by
  have hx2 : x ∈ (netlocSplit (schemeSplit (urlsplitClean u)).2).1 := hx
  constructor
  · simp only [netlocSplit] at hx2
    split_ifs at hx2
    · simpa using List.mem_takeWhile_imp hx2
    · cases hx2
  · exact mem_urlsplitClean u x
      (schemeSplit_snd_mem _ x (netlocSplit_fst_mem _ x hx2))

theorem urlsplitM_path_props (u : Chars) :
    '?' ∉ (urlsplitM u).2.2.1 ∧ '#' ∉ (urlsplitM u).2.2.1 ∧
      ∀ x ∈ (urlsplitM u).2.2.1, isUnsafeUrlByte x = false := by
  have hpath : (urlsplitM u).2.2.1 =
      ((netlocSplit (schemeSplit (urlsplitClean u)).2).2.takeWhile
        (fun c => c ≠ '#')).takeWhile (fun c => c ≠ '?') := rfl
  refine ⟨?_, ?_, ?_⟩
  · intro hm
    rw [hpath] at hm
    have := List.mem_takeWhile_imp hm
    simp at this
  · intro hm
    rw [hpath] at hm
    have := List.mem_takeWhile_imp ((List.takeWhile_sublist _).mem hm)
    simp at this
  · intro x hm
    rw [hpath] at hm
    exact mem_urlsplitClean u x (schemeSplit_snd_mem _ x
      (netlocSplit_snd_mem _ x
        ((List.takeWhile_sublist _).mem ((List.takeWhile_sublist _).mem hm))))

theorem lowerChar_toNat (c : Char) :
    (lowerChar c).toNat = if 65 ≤ c.toNat ∧ c.toNat ≤ 90 then c.toNat + 32
      else c.toNat := by
  unfold lowerChar
  split_ifs with h1 h2 h2
  · rw [charToNat_ofNat _ (Or.inl (by omega))]
  · simp at h1
    omega
  · simp at h1
    omega
  · rfl

theorem char_eq_of_toNat_eq (c d : Char) (h : c.toNat = d.toNat) : c = d :=
  Char.eq_of_val_eq (UInt32.ext h)

theorem isSchemeChar_of_toNat (c : Char)
    (h : (65 ≤ c.toNat ∧ c.toNat ≤ 90) ∨ (97 ≤ c.toNat ∧ c.toNat ≤ 122) ∨
      (48 ≤ c.toNat ∧ c.toNat ≤ 57) ∨ c.toNat = 43 ∨ c.toNat = 45 ∨
      c.toNat = 46) : isSchemeChar c = true := by
  simp only [isSchemeChar, Bool.or_eq_true, Bool.and_eq_true, decide_eq_true_eq]
  rcases h with h | h | h | h | h | h
  · exact Or.inl (Or.inl (Or.inl (Or.inl (Or.inl h))))
  · exact Or.inl (Or.inl (Or.inl (Or.inl (Or.inr h))))
  · exact Or.inl (Or.inl (Or.inl (Or.inr h)))
  · exact Or.inl (Or.inl (Or.inr (char_eq_of_toNat_eq c '+' (by rw [h]; rfl))))
  · exact Or.inl (Or.inr (char_eq_of_toNat_eq c '-' (by rw [h]; rfl)))
  · exact Or.inr (char_eq_of_toNat_eq c '.' (by rw [h]; rfl))

theorem lowerChar_scheme (c : Char) (h : isSchemeChar c = true) :
    isSchemeChar (lowerChar c) = true := by
  apply isSchemeChar_of_toNat
  have ht := lowerChar_toNat c
  rcases isSchemeChar_toNat c h with hr | hr | hr | hr | hr | hr <;>
    split_ifs at ht <;> omega

theorem isAsciiAlpha_iff_toNat (c : Char) :
    isAsciiAlpha c = true ↔
      (65 ≤ c.toNat ∧ c.toNat ≤ 90) ∨ (97 ≤ c.toNat ∧ c.toNat ≤ 122) := by
  simp [isAsciiAlpha]

theorem lowerChar_alpha (c : Char) (h : isAsciiAlpha c = true) :
    isAsciiAlpha (lowerChar c) = true := by
  rw [isAsciiAlpha_iff_toNat] at h ⊢
  have ht := lowerChar_toNat c
  split_ifs at ht <;> omega

theorem lowerChar_idem (c : Char) : lowerChar (lowerChar c) = lowerChar c := by
  apply char_eq_of_toNat_eq
  rw [lowerChar_toNat (lowerChar c)]
  have ht := lowerChar_toNat c
  split_ifs at ht ⊢ <;> omega

theorem schemeSplit_props (v : Chars) :
    (schemeSplit v).1 = [] ∨
      ((schemeSplit v).1 ≠ [] ∧
        isAsciiAlpha ((schemeSplit v).1.headD ' ') = true ∧
        (schemeSplit v).1.all isSchemeChar = true ∧
        lowerList (schemeSplit v).1 = (schemeSplit v).1) := by
  simp only [schemeSplit]
  split_ifs with hc
  · right
    obtain ⟨hlen, hne, halpha, hall⟩ := hc
    rw [List.all_eq_true] at hall
    cases hpre : v.takeWhile (fun c => c ≠ ':') with
    | nil => exact absurd hpre hne
    | cons c0 t0 =>
      rw [hpre] at halpha hall
      refine ⟨by simp [lowerList], ?_, ?_, ?_⟩
      · show isAsciiAlpha ((lowerList (c0 :: t0)).headD ' ') = true
        show isAsciiAlpha (lowerChar c0) = true
        exact lowerChar_alpha c0 halpha
      · show (lowerList (c0 :: t0)).all isSchemeChar = true
        rw [List.all_eq_true]
        intro x hx
        unfold lowerList at hx
        rw [List.mem_map] at hx
        obtain ⟨y, hy, hxy⟩ := hx
        subst hxy
        exact lowerChar_scheme y (hall y hy)
      · show lowerList (lowerList (c0 :: t0)) = lowerList (c0 :: t0)
        unfold lowerList
        rw [List.map_map]
        exact List.map_congr_left (fun x _ => lowerChar_idem x)
  · left
    rfl

theorem schemeSplit_cond_false (v : Chars) (h : (schemeSplit v).1 = []) :
    ¬((v.takeWhile (fun c => c ≠ ':')).length < v.length ∧
      v.takeWhile (fun c => c ≠ ':') ≠ [] ∧
      isAsciiAlpha ((v.takeWhile (fun c => c ≠ ':')).headD ' ') = true ∧
      (v.takeWhile (fun c => c ≠ ':')).all isSchemeChar = true) := by
  intro hc
  simp only [schemeSplit] at h
  rw [if_pos hc] at h
  exact hc.2.1 (List.map_eq_nil_iff.mp h)

theorem urlsplitM_path_shape (u : Chars) (hs : (urlsplitM u).1 = [])
    (hn : (urlsplitM u).2.1 = []) :
    (urlsplitM u).2.2.1 = [] ∨
    (∃ t, (urlsplitM u).2.2.1 = '/' :: t) ∨
    ((urlsplitM u).2.2.1 =
        ((urlsplitClean u).takeWhile (fun c => c ≠ '#')).takeWhile
          (fun c => c ≠ '?') ∧
      ∃ z, urlsplitClean u = (urlsplitM u).2.2.1 ++ z) := by
  have hsp : schemeSplit (urlsplitClean u) = ([], urlsplitClean u) :=
    schemeSplit_of_fst_nil _ hs
  have hpath : (urlsplitM u).2.2.1 =
      ((netlocSplit (schemeSplit (urlsplitClean u)).2).2.takeWhile
        (fun c => c ≠ '#')).takeWhile (fun c => c ≠ '?') := rfl
  rw [hsp] at hpath
  by_cases htake : (urlsplitClean u).take 2 = ['/', '/']
  · have hrest : (netlocSplit (urlsplitClean u)).2 =
        ((urlsplitClean u).drop 2).dropWhile (fun c => !netlocDelim c) := by
      simp only [netlocSplit]
      rw [if_pos htake]
    rw [hrest] at hpath
    cases hd : ((urlsplitClean u).drop 2).dropWhile (fun c => !netlocDelim c) with
    | nil =>
      rw [hd] at hpath
      left
      simp [hpath]
    | cons c t =>
      have hc : netlocDelim c = true := by
        have := dropWhile_head_false _ _ _ _ hd
        simpa using this
      rw [hd] at hpath
      simp [netlocDelim] at hc
      rcases hc with (hc | hc) | hc
      · subst hc
        right; left
        rw [takeWhile_cons_of_pos _ _ _ (by decide)] at hpath
        rw [takeWhile_cons_of_pos _ _ _ (by decide)] at hpath
        exact ⟨_, hpath⟩
      · subst hc
        left
        rw [takeWhile_cons_of_pos _ _ _ (by decide)] at hpath
        rw [takeWhile_cons_of_neg _ _ _ (by decide)] at hpath
        exact hpath
      · subst hc
        left
        rw [takeWhile_cons_of_neg _ _ _ (by decide)] at hpath
        exact hpath
  · have hrest : (netlocSplit (urlsplitClean u)).2 = urlsplitClean u := by
      simp only [netlocSplit]
      rw [if_neg htake]
    rw [hrest] at hpath
    right; right
    refine ⟨hpath, ?_⟩
    refine ⟨((urlsplitClean u).takeWhile (fun c => c ≠ '#')).dropWhile
        (fun c => c ≠ '?') ++ (urlsplitClean u).dropWhile (fun c => c ≠ '#'), ?_⟩
    rw [hpath]
    rw [← List.append_assoc, List.takeWhile_append_dropWhile,
      List.takeWhile_append_dropWhile]

theorem urlsplitM_head_prop (u : Chars) (hs : (urlsplitM u).1 = [])
    (hn : (urlsplitM u).2.1 = []) (hp : (urlsplitM u).2.2.1 ≠ []) :
    isC0OrSpace ((urlsplitM u).2.2.1.headD ' ') = false := by
  rcases urlsplitM_path_shape u hs hn with h | ⟨t, h⟩ | ⟨hpfx, z, hz⟩
  · exact absurd h hp
  · rw [h]
    show isC0OrSpace '/' = false
    decide
  · cases hc : (urlsplitM u).2.2.1 with
    | nil => exact absurd hc hp
    | cons c t =>
      rw [hc] at hz
      show isC0OrSpace c = false
      exact urlsplitClean_head u c (t ++ z) (by simpa using hz)

theorem urlsplitM_noscheme_prop (u : Chars) (hs : (urlsplitM u).1 = [])
    (hn : (urlsplitM u).2.1 = []) :
    ':' ∉ (urlsplitM u).2.2.1 ∨
      (urlsplitM u).2.2.1.takeWhile (fun c => c ≠ ':') = [] ∨
      isAsciiAlpha (((urlsplitM u).2.2.1.takeWhile
        (fun c => c ≠ ':')).headD ' ') = false ∨
      ((urlsplitM u).2.2.1.takeWhile (fun c => c ≠ ':')).all isSchemeChar
        = false := by
  rcases urlsplitM_path_shape u hs hn with h | ⟨t, h⟩ | ⟨hpfx, z, hz⟩
  · left
    rw [h]
    simp
  · right
    rw [h, takeWhile_cons_of_pos _ _ _ (by decide)]
    right; left
    rfl
  · by_cases hcol : ':' ∈ (urlsplitM u).2.2.1
    · right
      have hpre : (urlsplitM u).2.2.1.takeWhile (fun c => c ≠ ':') =
          (urlsplitClean u).takeWhile (fun c => c ≠ ':') := by
        rw [hz, takeWhile_append_of_stop_mem _ _ _ ⟨':', hcol, by simp⟩]
      have hcolv : ':' ∈ urlsplitClean u := by
        rw [hz]
        exact List.mem_append_left _ hcol
      have hlen : ((urlsplitClean u).takeWhile
          (fun c => c ≠ ':')).length < (urlsplitClean u).length :=
        length_takeWhile_lt_of_mem _ _ ':' hcolv (by simp)
      have hfail := schemeSplit_cond_false (urlsplitClean u) hs
      rw [not_and] at hfail
      have h2 := hfail hlen
      rw [not_and_or, not_and_or] at h2
      rcases h2 with h2 | h2 | h2
      · left
        rw [hpre]
        simpa using h2
      · right; left
        rw [hpre]
        simpa using h2
      · right; right
        rw [hpre]
        simpa using h2
    · left
      exact hcol

theorem takeWhile_append_all (p : Char → Bool) (a z : Chars)
    (ha : ∀ x ∈ a, p x = true) :
    (a ++ z).takeWhile p = a ++ z.takeWhile p := by
  induction a with
  | nil => rfl
  | cons c t ih =>
    have hc := ha c (by simp)
    simp only [List.cons_append, List.takeWhile, hc]
    exact congrArg (c :: ·) (ih fun y hy => ha y (List.mem_cons_of_mem _ hy))

theorem take2_append_ne (p z : Chars) (hp : p.take 2 ≠ ['/', '/'])
    (hz : z = [] ∨ ∃ t, z = '?' :: t) : (p ++ z).take 2 ≠ ['/', '/'] := by
  rcases hz with hz | ⟨t, hz⟩ <;> subst hz
  · simpa using hp
  · match p, hp with
    | [], _ => simp
    | [a], hp =>
      intro hc
      simp at hc
    | a :: b :: r, hp =>
      intro hc
      simp at hc
      exact hp (by simp [hc.1, hc.2])

theorem schemeSplit_eq_nil_of (v : Chars)
    (h : v.takeWhile (fun c => c ≠ ':') = v ∨
      v.takeWhile (fun c => c ≠ ':') = [] ∨
      isAsciiAlpha ((v.takeWhile (fun c => c ≠ ':')).headD ' ') = false ∨
      (v.takeWhile (fun c => c ≠ ':')).all isSchemeChar = false) :
    schemeSplit v = ([], v) := by
  simp only [schemeSplit]
  rw [if_neg]
  rintro ⟨hlen, hne, halpha, hall⟩
  rcases h with h | h | h | h
  · rw [h] at hlen
    exact lt_irrefl _ hlen
  · exact hne h
  · rw [halpha] at h
    cases h
  · rw [hall] at h
    cases h

theorem schemeFail_append (p z : Chars)
    (hfail : ':' ∉ p ∨ p.takeWhile (fun c => c ≠ ':') = [] ∨
      isAsciiAlpha ((p.takeWhile (fun c => c ≠ ':')).headD ' ') = false ∨
      (p.takeWhile (fun c => c ≠ ':')).all isSchemeChar = false)
    (hzhead : z = [] ∨ ∃ t, z = '?' :: t) :
    (p ++ z).takeWhile (fun c => c ≠ ':') = p ++ z ∨
      (p ++ z).takeWhile (fun c => c ≠ ':') = [] ∨
      isAsciiAlpha (((p ++ z).takeWhile (fun c => c ≠ ':')).headD ' ') = false ∨
      ((p ++ z).takeWhile (fun c => c ≠ ':')).all isSchemeChar = false := by
  by_cases hcp : ':' ∈ p
  · have heq := takeWhile_append_of_stop_mem (fun c => c ≠ ':') p z
      ⟨':', hcp, by simp⟩
    rcases hfail with hf | hf | hf | hf
    · exact absurd hcp hf
    · right; left
      rw [heq, hf]
    · right; right; left
      rw [heq]
      exact hf
    · right; right; right
      rw [heq]
      exact hf
  · have hallp : ∀ x ∈ p, (fun c => decide (c ≠ ':')) x = true := by
      intro x hx
      simp
      intro he
      exact hcp (he ▸ hx)
    rcases hzhead with hz | ⟨t, hz⟩ <;> subst hz
    · left
      rw [List.append_nil, takeWhile_all _ _ hallp]
    · right; right; right
      rw [takeWhile_append_all _ _ _ hallp,
        takeWhile_cons_of_pos _ _ _ (by decide)]
      cases hall : (p ++ '?' :: List.takeWhile (fun c => decide (c ≠ ':')) t).all
          isSchemeChar
      · rfl
      · rw [List.all_eq_true] at hall
        exact absurd (hall '?' (by simp)) (by decide)

theorem urlsplitM_build (y : Chars)
    (hclean : urlsplitClean y = y)
    (s2 rest : Chars) (hsch : schemeSplit y = (s2, rest))
    (n2 rest2 : Chars) (hnet : netlocSplit rest = (n2, rest2))
    (p2 q2 : Chars) (hsplitq : rest2 = p2 ++ (if q2 ≠ [] then '?' :: q2 else []))
    (hp2q : '?' ∉ p2) (hp2h : '#' ∉ p2) (hq2h : '#' ∉ q2) (hq2q : '?' ∉ q2) :
    urlsplitM y = (s2, n2, p2, q2, []) := by
  simp only [urlsplitM, hclean, hsch, hnet]
  have hp2all : ∀ x ∈ p2, (fun c => decide (c ≠ '#')) x = true := by
    intro x hx
    simp
    intro he
    exact hp2h (he ▸ hx)
  have hp2allq : ∀ x ∈ p2, (fun c => decide (c ≠ '?')) x = true := by
    intro x hx
    simp
    intro he
    exact hp2q (he ▸ hx)
  by_cases hq : q2 = []
  · subst hq
    rw [if_neg (by simp), List.append_nil] at hsplitq
    rw [hsplitq]
    rw [takeWhile_all _ _ hp2all, takeWhile_all _ _ hp2allq]
    have hnf : ¬(p2.length < p2.length) := by omega
    rw [if_neg hnf]
  · rw [if_pos hq] at hsplitq
    rw [hsplitq]
    have h0 : (p2 ++ '?' :: q2).takeWhile (fun c => c ≠ '#') = p2 ++ '?' :: q2 := by
      apply takeWhile_all
      intro x hx
      simp
      intro he
      subst he
      rcases List.mem_append.mp hx with hm | hm
      · exact hp2h hm
      · rcases List.mem_cons.mp hm with hm | hm
        · cases hm
        · exact hq2h hm
    rw [h0]
    have h1 : (p2 ++ '?' :: q2).takeWhile (fun c => c ≠ '?') = p2 :=
      takeWhile_append_stop _ _ _ _ hp2allq (by simp)
    rw [h1]
    have hlen : p2.length < (p2 ++ '?' :: q2).length := by simp
    have hnf : ¬((p2 ++ '?' :: q2).length < (p2 ++ '?' :: q2).length) := by omega
    rw [if_pos hlen, if_neg hnf, drop_after_seg]

theorem canonical_url_eq (y : Chars) (hA : y.takeWhile (fun c => c ≠ '#') = y)
    (s2 n2 p2 q2 : Chars) (hsplit : urlsplitM y = (s2, n2, p2, q2, [])) :
    canonical_url y = urlunsplitM s2 n2 p2
      (urlencode ((parse_qsl_kb q2).filter
        (fun kv => kv.1 ≠ "area_id".toList))) [] := by
  simp only [canonical_url, hA, hsplit]

theorem slashForce_of_shape (P : Chars) (h : P = [] ∨ ∃ t, P = '/' :: t) :
    (if P ≠ [] ∧ P.take 1 ≠ ['/'] then '/' :: P else P) = P := by
  rcases h with h | ⟨t, h⟩ <;> subst h
  · rw [if_neg (by simp)]
  · rw [if_neg (by simp)]

theorem slashForce_shape (p : Chars) :
    (if p ≠ [] ∧ p.take 1 ≠ ['/'] then '/' :: p else p) = [] ∨
      ∃ t, (if p ≠ [] ∧ p.take 1 ≠ ['/'] then '/' :: p else p) = '/' :: t := by
  split_ifs with h
  · exact Or.inr ⟨p, rfl⟩
  · cases p with
    | nil => exact Or.inl rfl
    | cons a t =>
      right
      push_neg at h
      have ha := h (by simp)
      simp at ha
      exact ⟨t, by rw [ha]⟩

theorem slashForce_mem (p : Chars) (x : Char)
    (hx : x ∈ (if p ≠ [] ∧ p.take 1 ≠ ['/'] then '/' :: p else p)) :
    x = '/' ∨ x ∈ p := by
  split_ifs at hx with h
  · exact (List.mem_cons.mp hx).imp id id
  · exact Or.inr hx

theorem slashForce_take2 (p : Chars) (hp : p.take 2 ≠ ['/', '/']) :
    (if p ≠ [] ∧ p.take 1 ≠ ['/'] then '/' :: p else p).take 2 ≠ ['/', '/'] := by
  split_ifs with h
  · obtain ⟨hne, ht⟩ := h
    cases p with
    | nil => exact absurd rfl hne
    | cons a t =>
      intro hc
      simp at hc
      exact ht (by simp [hc])
  · exact hp

theorem urlsplitClean_of (y : Chars)
    (hhead : ∀ c t, y = c :: t → isC0OrSpace c = false)
    (hclean2 : ∀ x ∈ y, isUnsafeUrlByte x = false) :
    urlsplitClean y = y := by
  unfold urlsplitClean
  have hdw : y.dropWhile isC0OrSpace = y := by
    cases hy : y with
    | nil => rfl
    | cons c t => exact List.dropWhile_cons_of_neg (by simp [hhead c t hy])
  rw [hdw]
  apply List.filter_eq_self.mpr
  intro a ha
  simp [hclean2 a ha]

theorem schemeSplit_recover (s R : Chars) (hs0 : s ≠ [])
    (hsall : ∀ x ∈ s, isSchemeChar x = true)
    (hslow : lowerList s = s)
    (hshead : isAsciiAlpha (s.headD ' ') = true) :
    schemeSplit ((s ++ [':']) ++ R) = (s, R) := by
  rw [show (s ++ [':']) ++ R = s ++ ':' :: R by simp]
  have hpre : (s ++ ':' :: R).takeWhile (fun c => c ≠ ':') = s :=
    takeWhile_append_stop _ s ':' R
      (fun x hx => by simpa using isSchemeChar_ne_colon x (hsall x hx))
      (by simp)
  have hlen : s.length < (s ++ ':' :: R).length := by
    rw [List.length_append, List.length_cons]
    omega
  simp only [schemeSplit]
  rw [hpre, if_pos ⟨hlen, hs0, hshead, List.all_eq_true.mpr hsall⟩, hslow,
    drop_after_seg]

theorem schemeSplit_slash (t : Chars) : schemeSplit ('/' :: t) = ([], '/' :: t) := by
  apply schemeSplit_eq_nil_of
  right; right; left
  rw [takeWhile_cons_of_pos _ _ _ (by decide)]
  show isAsciiAlpha '/' = false
  decide

theorem canonical_of_split (y s2 n2 p2 : Chars) (ps : List (Chars × Chars))
    (hA : y.takeWhile (fun c => c ≠ '#') = y)
    (hsplit : urlsplitM y = (s2, n2, p2, urlencode ps, []))
    (hps : ps.filter (fun kv => kv.1 ≠ "area_id".toList) = ps)
    (hre : urlunsplitM s2 n2 p2 (urlencode ps) [] = y) :
    canonical_url y = y := by
  rw [canonical_url_eq y hA s2 n2 p2 (urlencode ps) hsplit,
    parse_qsl_kb_urlencode, hps, hre]

theorem canonical_fixed_netloc (s n P : Chars) (ps : List (Chars × Chars))
    (hsall : ∀ x ∈ s, isSchemeChar x = true)
    (hslow : lowerList s = s)
    (hshead : s ≠ [] → isAsciiAlpha (s.headD ' ') = true)
    (hn : ∀ x ∈ n, netlocDelim x = false ∧ isUnsafeUrlByte x = false)
    (hPshape : P = [] ∨ ∃ t, P = '/' :: t)
    (hPmem : ∀ x ∈ P, x ≠ '?' ∧ x ≠ '#' ∧ isUnsafeUrlByte x = false)
    (hps : ps.filter (fun kv => kv.1 ≠ "area_id".toList) = ps)
    (hB : n ≠ [] ∨ (s ≠ [] ∧ s ∈ usesNetloc ∧ P.take 2 ≠ ['/', '/'])) :
    canonical_url ((if s ≠ [] then s ++ [':'] else []) ++
        (('/' :: '/' :: n) ++ P) ++
        (if urlencode ps ≠ [] then '?' :: urlencode ps else [])) =
      (if s ≠ [] then s ++ [':'] else []) ++ (('/' :: '/' :: n) ++ P) ++
        (if urlencode ps ≠ [] then '?' :: urlencode ps else []) := by
  have hqmem := mem_urlencode_toNat ps
  have hzsh : (if urlencode ps ≠ [] then '?' :: urlencode ps else []) = [] ∨
      ∃ t, (if urlencode ps ≠ [] then '?' :: urlencode ps else []) = '?' :: t := by
    split_ifs with h
    · exact Or.inr ⟨_, rfl⟩
    · exact Or.inl rfl
  have hzmem : ∀ x ∈ (if urlencode ps ≠ [] then '?' :: urlencode ps else []),
      x = '?' ∨ x ∈ urlencode ps := by
    intro x hx
    split_ifs at hx
    · exact (List.mem_cons.mp hx).imp id id
    · cases hx
  set Z := (if urlencode ps ≠ [] then '?' :: urlencode ps else []) with hZdef
  set y := (if s ≠ [] then s ++ [':'] else []) ++ (('/' :: '/' :: n) ++ P) ++ Z
    with hydef
  have hymem : ∀ x ∈ y, x ∈ s ∨ x = ':' ∨ x = '/' ∨ x ∈ n ∨ x ∈ P ∨ x = '?' ∨
      x ∈ urlencode ps := by
    intro x hx
    rw [hydef] at hx
    rcases List.mem_append.mp hx with hx | hx
    · rcases List.mem_append.mp hx with hx | hx
      · split_ifs at hx
        · rcases List.mem_append.mp hx with hx | hx
          · exact Or.inl hx
          · right; left; simpa using hx
        · cases hx
      · rcases List.mem_append.mp hx with hx | hx
        · rcases List.mem_cons.mp hx with hx | hx
          · right; right; left; exact hx
          · rcases List.mem_cons.mp hx with hx | hx
            · right; right; left; exact hx
            · right; right; right; left; exact hx
        · right; right; right; right; left; exact hx
    · rcases hzmem x hx with hx | hx
      · right; right; right; right; right; left; exact hx
      · right; right; right; right; right; right; exact hx
  have hne_hash : ∀ x ∈ y, (fun c => decide (c ≠ '#')) x = true := by
    intro x hx
    simp only [decide_eq_true_eq]
    rcases hymem x hx with hx | hx | hx | hx | hx | hx | hx
    · exact isSchemeChar_ne_hash x (hsall x hx)
    · subst hx; decide
    · subst hx; decide
    · intro he
      subst he
      exact absurd (hn _ hx).1 (by decide)
    · exact (hPmem x hx).2.1
    · subst hx; decide
    · exact mem_urlencode_ne_hash ps x hx
  have hA : y.takeWhile (fun c => c ≠ '#') = y := takeWhile_all _ _ hne_hash
  have hclean2 : ∀ x ∈ y, isUnsafeUrlByte x = false := by
    intro x hx
    rcases hymem x hx with hx | hx | hx | hx | hx | hx | hx
    · exact isUnsafeUrlByte_false_of_gt x (isSchemeChar_gt32 x (hsall x hx))
    · subst hx; decide
    · subst hx; decide
    · exact (hn x hx).2
    · exact (hPmem x hx).2.2
    · subst hx; decide
    · exact isUnsafeUrlByte_false_of_gt x (hqmem x hx).1
  have hheady : ∀ c t, y = c :: t → isC0OrSpace c = false := by
    intro c t hct
    rw [hydef] at hct
    by_cases hs0 : s = []
    · rw [hs0, if_neg (by simp), List.nil_append] at hct
      simp only [List.cons_append] at hct
      injection hct with h1 h2
      rw [← h1]
      decide
    · cases hs : s with
      | nil => exact absurd hs hs0
      | cons c0 st =>
        rw [hs, if_pos (by simp)] at hct
        simp only [List.cons_append] at hct
        injection hct with h1 h2
        have hc : isAsciiAlpha c = true := by
          rw [← h1]
          simpa [hs] using hshead hs0
        apply isC0OrSpace_false_of_gt
        have h3 := (isAsciiAlpha_iff_toNat c).mp hc
        omega
  have hsch : schemeSplit y = (s, (('/' :: '/' :: n) ++ P) ++ Z) := by
    by_cases hs0 : s = []
    · rw [hydef, hs0, if_neg (by simp), List.nil_append]
      rw [show (('/' :: '/' :: n) ++ P) ++ Z = '/' :: '/' :: ((n ++ P) ++ Z) by
        simp only [List.cons_append]]
      exact schemeSplit_slash _
    · rw [hydef, if_pos hs0,
        show ((s ++ [':']) ++ (('/' :: '/' :: n) ++ P)) ++ Z =
          (s ++ [':']) ++ ((('/' :: '/' :: n) ++ P) ++ Z) from
          List.append_assoc _ _ _]
      exact schemeSplit_recover s _ hs0 hsall hslow (hshead hs0)
  have hnet : netlocSplit ((('/' :: '/' :: n) ++ P) ++ Z) = (n, P ++ Z) := by
    rw [show (('/' :: '/' :: n) ++ P) ++ Z = '/' :: '/' :: ((n ++ P) ++ Z) by
      simp only [List.cons_append]]
    simp only [netlocSplit]
    have ht2 : ('/' :: '/' :: ((n ++ P) ++ Z)).take 2 = ['/', '/'] := rfl
    rw [if_pos ht2]
    show (((n ++ P) ++ Z).takeWhile (fun c => !netlocDelim c),
        ((n ++ P) ++ Z).dropWhile (fun c => !netlocDelim c)) = (n, P ++ Z)
    rw [List.append_assoc]
    have hna : ∀ x ∈ n, (fun c => !netlocDelim c) x = true := by
      intro x hx
      show (!netlocDelim x) = true
      rw [(hn x hx).1]
      rfl
    rcases hPshape with hP | ⟨t, hP⟩
    · subst hP
      rw [List.nil_append]
      rcases hzsh with hZ | ⟨t, hZ⟩
      · rw [hZ, List.append_nil]
        rw [takeWhile_all _ _ hna, dropWhile_all _ _ hna]
      · rw [hZ]
        rw [takeWhile_append_stop _ _ _ _ hna (by decide),
          dropWhile_append_stop _ _ _ _ hna (by decide)]
    · subst hP
      rw [show ('/' :: t) ++ Z = '/' :: (t ++ Z) from rfl]
      rw [takeWhile_append_stop _ _ _ _ hna (by decide),
        dropWhile_append_stop _ _ _ _ hna (by decide)]
  have hsplit : urlsplitM y = (s, n, P, urlencode ps, []) :=
    urlsplitM_build y (urlsplitClean_of y hheady hclean2) s _ hsch n _ hnet
      P (urlencode ps) (by rw [hZdef])
      (fun hm => (hPmem '?' hm).1 rfl)
      (fun hm => (hPmem '#' hm).2.1 rfl)
      (fun hm => mem_urlencode_ne_hash ps '#' hm rfl)
      (fun hm => mem_urlencode_ne_q ps '?' hm rfl)
  have hre : urlunsplitM s n P (urlencode ps) [] = y := by
    rw [urlunsplitM_flat, if_pos hB, slashForce_of_shape P hPshape, hydef, hZdef]
  exact canonical_of_split y s n P ps hA hsplit hps hre

theorem canonical_fixed_nonetloc (s p : Chars) (ps : List (Chars × Chars))
    (hsall : ∀ x ∈ s, isSchemeChar x = true)
    (hslow : lowerList s = s)
    (hshead : s ≠ [] → isAsciiAlpha (s.headD ' ') = true)
    (hp : ∀ x ∈ p, x ≠ '?' ∧ x ≠ '#' ∧ isUnsafeUrlByte x = false)
    (hhead : s = [] → ∀ c t, p = c :: t → isC0OrSpace c = false)
    (hnosch : s = [] →
      (':' ∉ p ∨ p.takeWhile (fun c => c ≠ ':') = [] ∨
        isAsciiAlpha ((p.takeWhile (fun c => c ≠ ':')).headD ' ') = false ∨
        (p.takeWhile (fun c => c ≠ ':')).all isSchemeChar = false))
    (hps : ps.filter (fun kv => kv.1 ≠ "area_id".toList) = ps)
    (htake2 : p.take 2 ≠ ['/', '/'])
    (hnoB : ¬(s ≠ [] ∧ s ∈ usesNetloc ∧ p.take 2 ≠ ['/', '/'])) :
    canonical_url ((if s ≠ [] then s ++ [':'] else []) ++ p ++
        (if urlencode ps ≠ [] then '?' :: urlencode ps else [])) =
      (if s ≠ [] then s ++ [':'] else []) ++ p ++
        (if urlencode ps ≠ [] then '?' :: urlencode ps else []) := by
  have hqmem := mem_urlencode_toNat ps
  have hzsh : (if urlencode ps ≠ [] then '?' :: urlencode ps else []) = [] ∨
      ∃ t, (if urlencode ps ≠ [] then '?' :: urlencode ps else []) = '?' :: t := by
    split_ifs with h
    · exact Or.inr ⟨_, rfl⟩
    · exact Or.inl rfl
  have hzmem : ∀ x ∈ (if urlencode ps ≠ [] then '?' :: urlencode ps else []),
      x = '?' ∨ x ∈ urlencode ps := by
    intro x hx
    split_ifs at hx
    · exact (List.mem_cons.mp hx).imp id id
    · cases hx
  set Z := (if urlencode ps ≠ [] then '?' :: urlencode ps else []) with hZdef
  set y := (if s ≠ [] then s ++ [':'] else []) ++ p ++ Z with hydef
  have hymem : ∀ x ∈ y, x ∈ s ∨ x = ':' ∨ x ∈ p ∨ x = '?' ∨
      x ∈ urlencode ps := by
    intro x hx
    rw [hydef] at hx
    rcases List.mem_append.mp hx with hx | hx
    · rcases List.mem_append.mp hx with hx | hx
      · split_ifs at hx
        · rcases List.mem_append.mp hx with hx | hx
          · exact Or.inl hx
          · right; left; simpa using hx
        · cases hx
      · right; right; left; exact hx
    · rcases hzmem x hx with hx | hx
      · right; right; right; left; exact hx
      · right; right; right; right; exact hx
  have hne_hash : ∀ x ∈ y, (fun c => decide (c ≠ '#')) x = true := by
    intro x hx
    simp only [decide_eq_true_eq]
    rcases hymem x hx with hx | hx | hx | hx | hx
    · exact isSchemeChar_ne_hash x (hsall x hx)
    · subst hx; decide
    · exact (hp x hx).2.1
    · subst hx; decide
    · exact mem_urlencode_ne_hash ps x hx
  have hA : y.takeWhile (fun c => c ≠ '#') = y := takeWhile_all _ _ hne_hash
  have hclean2 : ∀ x ∈ y, isUnsafeUrlByte x = false := by
    intro x hx
    rcases hymem x hx with hx | hx | hx | hx | hx
    · exact isUnsafeUrlByte_false_of_gt x (isSchemeChar_gt32 x (hsall x hx))
    · subst hx; decide
    · exact (hp x hx).2.2
    · subst hx; decide
    · exact isUnsafeUrlByte_false_of_gt x (hqmem x hx).1
  have hheady : ∀ c t, y = c :: t → isC0OrSpace c = false := by
    intro c t hct
    rw [hydef] at hct
    by_cases hs0 : s = []
    · rw [hs0, if_neg (by simp), List.nil_append] at hct
      cases hp0 : p with
      | nil =>
        rw [hp0, List.nil_append] at hct
        rcases hzsh with hZ | ⟨t2, hZ⟩
        · rw [hZ] at hct
          cases hct
        · rw [hZ] at hct
          injection hct with h1 h2
          rw [← h1]
          decide
      | cons a t2 =>
        rw [hp0] at hct
        simp only [List.cons_append] at hct
        injection hct with h1 h2
        rw [← h1]
        exact hhead hs0 a t2 hp0
    · cases hs : s with
      | nil => exact absurd hs hs0
      | cons c0 st =>
        rw [hs, if_pos (by simp)] at hct
        simp only [List.cons_append] at hct
        injection hct with h1 h2
        have hc : isAsciiAlpha c = true := by
          rw [← h1]
          simpa [hs] using hshead hs0
        apply isC0OrSpace_false_of_gt
        have h3 := (isAsciiAlpha_iff_toNat c).mp hc
        omega
  have hsch : schemeSplit y = (s, p ++ Z) := by
    by_cases hs0 : s = []
    · rw [hydef, hs0, if_neg (by simp), List.nil_append]
      exact schemeSplit_eq_nil_of _ (schemeFail_append p Z (hnosch hs0) hzsh)
    · rw [hydef, if_pos hs0,
        show ((s ++ [':']) ++ p) ++ Z = (s ++ [':']) ++ (p ++ Z) from
          List.append_assoc _ _ _]
      exact schemeSplit_recover s _ hs0 hsall hslow (hshead hs0)
  have hnet : netlocSplit (p ++ Z) = ([], p ++ Z) := by
    simp only [netlocSplit]
    rw [if_neg (take2_append_ne p Z htake2 hzsh)]
  have hsplit : urlsplitM y = (s, [], p, urlencode ps, []) :=
    urlsplitM_build y (urlsplitClean_of y hheady hclean2) s _ hsch [] _ hnet
      p (urlencode ps) (by rw [hZdef])
      (fun hm => (hp '?' hm).1 rfl)
      (fun hm => (hp '#' hm).2.1 rfl)
      (fun hm => mem_urlencode_ne_hash ps '#' hm rfl)
      (fun hm => mem_urlencode_ne_q ps '?' hm rfl)
  have hre : urlunsplitM s [] p (urlencode ps) [] = y := by
    have hcond : ¬((([] : Chars) ≠ []) ∨
        (s ≠ [] ∧ s ∈ usesNetloc ∧ p.take 2 ≠ ['/', '/'])) := by
      rintro (h | h)
      · exact h rfl
      · exact hnoB h
    rw [urlunsplitM_flat, if_neg hcond, hydef, hZdef]
  exact canonical_of_split y s [] p ps hA hsplit hps hre

theorem canonical_url_unsplit_fixed (s n p : Chars) (ps : List (Chars × Chars))
    (hsall : ∀ x ∈ s, isSchemeChar x = true)
    (hslow : lowerList s = s)
    (hshead : s ≠ [] → isAsciiAlpha (s.headD ' ') = true)
    (hn : ∀ x ∈ n, netlocDelim x = false ∧ isUnsafeUrlByte x = false)
    (hp : ∀ x ∈ p, x ≠ '?' ∧ x ≠ '#' ∧ isUnsafeUrlByte x = false)
    (hhead : s = [] → n = [] → ∀ c t, p = c :: t → isC0OrSpace c = false)
    (hnosch : s = [] → n = [] →
      (':' ∉ p ∨ p.takeWhile (fun c => c ≠ ':') = [] ∨
        isAsciiAlpha ((p.takeWhile (fun c => c ≠ ':')).headD ' ') = false ∨
        (p.takeWhile (fun c => c ≠ ':')).all isSchemeChar = false))
    (hps : ps.filter (fun kv => kv.1 ≠ "area_id".toList) = ps)
    (hH : n ≠ [] ∨ p.take 2 ≠ ['/', '/']) :
    canonical_url (urlunsplitM s n p (urlencode ps) []) =
      urlunsplitM s n p (urlencode ps) [] := by
  by_cases hB : n ≠ [] ∨ (s ≠ [] ∧ s ∈ usesNetloc ∧ p.take 2 ≠ ['/', '/'])
  · rw [urlunsplitM_flat, if_pos hB]
    refine canonical_fixed_netloc s n _ ps hsall hslow hshead hn
      (slashForce_shape p) ?_ hps ?_
    · intro x hx
      rcases slashForce_mem p x hx with hx | hx
      · subst hx
        exact ⟨by decide, by decide, by decide⟩
      · exact hp x hx
    · rcases hB with hB | hB
      · exact Or.inl hB
      · exact Or.inr ⟨hB.1, hB.2.1, slashForce_take2 p hB.2.2⟩
  · have hn0 : n = [] := by
      by_contra h
      exact hB (Or.inl h)
    subst hn0
    have hnoB : ¬(s ≠ [] ∧ s ∈ usesNetloc ∧ p.take 2 ≠ ['/', '/']) :=
      fun h => hB (Or.inr h)
    have htake2 : p.take 2 ≠ ['/', '/'] := by
      rcases hH with h | h
      · exact absurd rfl h
      · exact h
    rw [urlunsplitM_flat, if_neg hB]
    exact canonical_fixed_nonetloc s p ps hsall hslow hshead hp
      (fun h1 => hhead h1 rfl) (fun h1 => hnosch h1 rfl) hps htake2 hnoB

/-- C10 counterexample: `canonical_url` is not idempotent.  On the input
`"//////x"` the first pass collapses the leading slashes to `"////x"`
(the first two become an empty netloc) and the second pass collapses
them again to `"//x"`. -/
theorem c10_counterexample :
    canonical_url (canonical_url "//////x".toList) ≠
      canonical_url "//////x".toList := by decide

/-- C10 (amended): `canonical_url` is idempotent on every URL whose
parse (after fragment stripping) has a non-empty netloc or whose path
does not begin with `//`.  The original claim, idempotence on all URLs,
is refuted by `c10_counterexample`. -/
theorem c10_canonical_url_idempotent (url : Chars)
    (h : (urlsplitM (url.takeWhile (fun c => c ≠ '#'))).2.1 ≠ [] ∨
      (urlsplitM (url.takeWhile (fun c => c ≠ '#'))).2.2.1.take 2 ≠ ['/', '/']) :
    canonical_url (canonical_url url) = canonical_url url := by
  set u := url.takeWhile (fun c => c ≠ '#') with hu
  have hcu : canonical_url url = urlunsplitM (urlsplitM u).1 (urlsplitM u).2.1
      (urlsplitM u).2.2.1
      (urlencode ((parse_qsl_kb (urlsplitM u).2.2.2.1).filter
        (fun kv => kv.1 ≠ "area_id".toList))) [] := rfl
  rw [hcu]
  apply canonical_url_unsplit_fixed
  · intro x hx
    rcases schemeSplit_props (urlsplitClean u) with hpr | hpr
    · have hx2 : x ∈ (schemeSplit (urlsplitClean u)).1 := hx
      rw [hpr] at hx2
      cases hx2
    · have hx2 : x ∈ (schemeSplit (urlsplitClean u)).1 := hx
      exact List.all_eq_true.mp hpr.2.2.1 x hx2
  · rcases schemeSplit_props (urlsplitClean u) with hpr | hpr
    · show lowerList (schemeSplit (urlsplitClean u)).1 =
        (schemeSplit (urlsplitClean u)).1
      rw [hpr]
      rfl
    · exact hpr.2.2.2
  · intro hne
    rcases schemeSplit_props (urlsplitClean u) with hpr | hpr
    · exact absurd hpr hne
    · exact hpr.2.1
  · intro x hx
    exact urlsplitM_netloc_props u x hx
  · intro x hx
    obtain ⟨h1, h2, h3⟩ := urlsplitM_path_props u
    exact ⟨fun he => h1 (he ▸ hx), fun he => h2 (he ▸ hx), h3 x hx⟩
  · intro hs0 hn0 c t hct
    have hne : (urlsplitM u).2.2.1 ≠ [] := by
      rw [hct]
      simp
    have hh := urlsplitM_head_prop u hs0 hn0 hne
    rw [hct] at hh
    simpa using hh
  · intro hs0 hn0
    exact urlsplitM_noscheme_prop u hs0 hn0
  · exact List.filter_eq_self.mpr fun a ha => (List.mem_filter.mp ha).2
  · exact h

theorem c10_witness :
    ((urlsplitM ("http://x.jp/p?a=1".toList.takeWhile
        (fun c => c ≠ '#'))).2.1 ≠ [] ∨
      (urlsplitM ("http://x.jp/p?a=1".toList.takeWhile
        (fun c => c ≠ '#'))).2.2.1.take 2 ≠ ['/', '/']) ∧
    canonical_url (canonical_url "http://x.jp/p?a=1".toList) =
      canonical_url "http://x.jp/p?a=1".toList :=
  ⟨by decide, c10_canonical_url_idempotent _ (by decide)⟩

/-! SHA-1 (`hashlib.sha1`), used by `make_event_id` and `sha1b`.  Words
are `Nat` values kept below `2 ^ 32` by explicit reduction. -/

def w32 : Nat := 4294967296

def rotl (n x : Nat) : Nat := ((x <<< n) % w32) ||| (x >>> (32 - n))

/-- SHA-1 padding: append `0x80`, zeros to 56 mod 64, then the bit
length as eight big-endian bytes. -/
def sha1Pad (msg : List Nat) : List Nat :=
  let len := msg.length
  let ml := 8 * len
  msg ++ 128 :: List.replicate ((119 - len % 64) % 64) 0 ++
    [(ml >>> 56) % 256, (ml >>> 48) % 256, (ml >>> 40) % 256, (ml >>> 32) % 256,
     (ml >>> 24) % 256, (ml >>> 16) % 256, (ml >>> 8) % 256, ml % 256]

/-- Four big-endian bytes to one 32-bit word, over the whole list. -/
def bytesToWords : List Nat → List Nat
  | b0 :: b1 :: b2 :: b3 :: t =>
    (((b0 * 256 + b1) * 256 + b2) * 256 + b3) :: bytesToWords t
  | _ => []

/-- Chunk a word list into 16-word blocks (the padded length is always a
multiple of 16 words, so the fallback never fires on padded input). -/
def wordsToBlocks : List Nat → List (List Nat)
  | w0 :: w1 :: w2 :: w3 :: w4 :: w5 :: w6 :: w7 :: w8 :: w9 :: w10 :: w11 ::
      w12 :: w13 :: w14 :: w15 :: t =>
    [w0, w1, w2, w3, w4, w5, w6, w7, w8, w9, w10, w11, w12, w13, w14, w15] ::
      wordsToBlocks t
  | _ => []

/-- Message-schedule extension, keeping the schedule in reverse order:
`w[i] = rotl1 (w[i-3] xor w[i-8] xor w[i-14] xor w[i-16])`. -/
def sha1ExtendAux : Nat → List Nat → List Nat
  | 0, ws => ws
  | fuel + 1, ws =>
    let a := ws.getD 2 0
    let b := ws.getD 7 0
    let c := ws.getD 13 0
    let d := ws.getD 15 0
    sha1ExtendAux fuel (rotl 1 (Nat.xor (Nat.xor a b) (Nat.xor c d)) :: ws)

def Sha1State := Nat × Nat × Nat × Nat × Nat

/-- One SHA-1 round (round index `i`, schedule word `w`). -/
def sha1Round (i : Nat) (st : Sha1State) (w : Nat) : Sha1State :=
  let (a, b, c, d, e) := st
  let f :=
    if i < 20 then Nat.lor (Nat.land b c) (Nat.land (Nat.xor b 4294967295) d)
    else if i < 40 then Nat.xor (Nat.xor b c) d
    else if i < 60 then Nat.lor (Nat.lor (Nat.land b c) (Nat.land b d)) (Nat.land c d)
    else Nat.xor (Nat.xor b c) d
  let k :=
    if i < 20 then 0x5A827999
    else if i < 40 then 0x6ED9EBA1
    else if i < 60 then 0x8F1BBCDC
    else 0xCA62C1D6
  ((rotl 5 a + f + e + k + w) % w32, a, rotl 30 b, c, d)

def sha1Compress : Nat → Sha1State → List Nat → Sha1State
  | _, st, [] => st
  | i, st, w :: t => sha1Compress (i + 1) (sha1Round i st w) t

def sha1Blocks : Sha1State → List (List Nat) → Sha1State
  | h, [] => h
  | h, blk :: t =>
    let (h0, h1, h2, h3, h4) := h
    let ws := (sha1ExtendAux 64 blk.reverse).reverse
    let (a, b, c, d, e) := sha1Compress 0 (h0, h1, h2, h3, h4) ws
    sha1Blocks ((h0 + a) % w32, (h1 + b) % w32, (h2 + c) % w32, (h3 + d) % w32,
      (h4 + e) % w32) t

def hexDigitLower (n : Nat) : Char :=
  if n < 10 then Char.ofNat (48 + n) else Char.ofNat (87 + n)

def wordHex (w : Nat) : Chars :=
  [hexDigitLower (w / 268435456 % 16), hexDigitLower (w / 16777216 % 16),
   hexDigitLower (w / 1048576 % 16), hexDigitLower (w / 65536 % 16),
   hexDigitLower (w / 4096 % 16), hexDigitLower (w / 256 % 16),
   hexDigitLower (w / 16 % 16), hexDigitLower (w % 16)]

/-- `hashlib.sha1(bytes).hexdigest()`. -/
def sha1hex (msg : List Nat) : Chars :=
  let h := sha1Blocks (1732584193, 4023233417, 2562383102, 271733878, 3285377520)
    (wordsToBlocks (bytesToWords (sha1Pad msg)))
  let (h0, h1, h2, h3, h4) := h
  wordHex h0 ++ wordHex h1 ++ wordHex h2 ++ wordHex h3 ++ wordHex h4

/-- `sha1b` from monitor_agencies.py. -/
def sha1b (b : List Nat) : Chars := sha1hex b

set_option maxRecDepth 100000 in
example : sha1hex (utf8Enc "abc".toList) =
    "a9993e364706816aba3e25717850c26c9cd0d89d".toList := by decide
set_option maxRecDepth 100000 in
example : sha1hex [] = "da39a3ee5e6b4b0d3255bfef95601890afd80709".toList := by
  decide
set_option maxRecDepth 100000 in
example : sha1hex (utf8Enc (List.replicate 60 'a')) =
    "13d956033d9af449bfe2c4ef78c17c20469c4bf1".toList := by decide

/-- `make_event_id` from monitor_agencies.py:
`sha1(f"{pref}|{norm_name}|{source_url}".encode("utf-8")).hexdigest()[:16]`. -/
def make_event_id (pref norm_name source_url : Chars) : Chars :=
  (sha1hex (utf8Enc (pref ++ '|' :: norm_name ++ '|' :: source_url))).take 16

set_option maxRecDepth 100000 in
example : make_event_id "長野県".toList "大菩薩".toList "http://x.jp/a".toList =
    "b7e53f52d8287c43".toList := by decide

/-! The event merge engine: `merge_events`, `make_event_id` callers and
the surrounding record types.  A raw event models the dicts produced by
the harvesters (`.get` of a missing or null key is `none`); a stored
event models the `payload` dict of `merge_events`.  `from`/`to` are
renamed `date_from`/`date_to` (`from` is reserved in Lean). -/

structure REvent where
  name : Option Chars
  norm_name : Option Chars
  status : Option Chars
  reason : Option Chars
  date_from : Option Chars
  date_to : Option Chars
  source_url : Option Chars
deriving DecidableEq

structure CEvent where
  id : Chars
  pref : Chars
  pref_code : Option Chars
  name : Chars
  norm_name : Chars
  status : Option Chars
  reason : Option Chars
  date_from : Option Chars
  date_to : Option Chars
  source_url : Chars
  updated_at : Chars
deriving DecidableEq

/-- The persisted event store: `{"events": [...], "updated": ...}`. -/
structure Store where
  events : List CEvent
  updated : Chars
deriving DecidableEq

/-- `PREF_NAME2CODE` from monitor_agencies.py. -/
def PREF_NAME2CODE : List (Chars × Chars) := [
   ("北海道".toList, "01".toList), ("青森県".toList, "02".toList), ("岩手県".toList, "03".toList), ("宮城県".toList, "04".toList),
   ("秋田県".toList, "05".toList), ("山形県".toList, "06".toList), ("福島県".toList, "07".toList), ("茨城県".toList, "08".toList),
   ("栃木県".toList, "09".toList), ("群馬県".toList, "10".toList), ("埼玉県".toList, "11".toList), ("千葉県".toList, "12".toList),
   ("東京都".toList, "13".toList), ("神奈川県".toList, "14".toList), ("新潟県".toList, "15".toList), ("富山県".toList, "16".toList),
   ("石川県".toList, "17".toList), ("福井県".toList, "18".toList), ("山梨県".toList, "19".toList), ("長野県".toList, "20".toList),
   ("岐阜県".toList, "21".toList), ("静岡県".toList, "22".toList), ("愛知県".toList, "23".toList), ("三重県".toList, "24".toList),
   ("滋賀県".toList, "25".toList), ("京都府".toList, "26".toList), ("大阪府".toList, "27".toList), ("兵庫県".toList, "28".toList),
   ("奈良県".toList, "29".toList), ("和歌山県".toList, "30".toList), ("鳥取県".toList, "31".toList), ("島根県".toList, "32".toList),
   ("岡山県".toList, "33".toList), ("広島県".toList, "34".toList), ("山口県".toList, "35".toList), ("徳島県".toList, "36".toList),
   ("香川県".toList, "37".toList), ("愛媛県".toList, "38".toList), ("高知県".toList, "39".toList), ("福岡県".toList, "40".toList),
   ("佐賀県".toList, "41".toList), ("長崎県".toList, "42".toList), ("熊本県".toList, "43".toList), ("大分県".toList, "44".toList),
   ("宮崎県".toList, "45".toList), ("鹿児島県".toList, "46".toList), ("沖縄県".toList, "47".toList)]

/-- `PREF_NAME2CODE.get(pref)`: `none` when the prefecture is unknown. -/
def prefName2Code (p : Chars) : Option Chars :=
  (PREF_NAME2CODE.find? (fun kv => kv.1 = p)).map (fun kv => kv.2)

/-- `raw_name = ev.get("name") or ev.get("norm_name") or ""`. -/
def raw_name_of (ev : REvent) : Chars := pyStrOr ev.name (pyStrOr ev.norm_name [])

/-- `norm = ev.get("norm_name") or norm_rindo_name(raw_name)`. -/
def norm_of (ev : REvent) : Chars :=
  pyStrOr ev.norm_name (norm_rindo_name (raw_name_of ev))

/-- `src = canonical_url(ev.get("source_url") or source_url)`. -/
def src_of (ev : REvent) (source_url : Chars) : Chars :=
  canonical_url (pyStrOr ev.source_url source_url)

/-- `eid = make_event_id(pref, norm, src)`. -/
def eid_of (ev : REvent) (pref source_url : Chars) : Chars :=
  make_event_id pref (norm_of ev) (src_of ev source_url)

/-- The `payload` dict built for each raw event (`now` injected: the
Python code reads the wall clock once per call). -/
def payload_of (ev : REvent) (pref source_url now : Chars) : CEvent :=
  { id := eid_of ev pref source_url
    pref := pref
    pref_code := prefName2Code pref
    name := if raw_name_of ev = [] then norm_of ev else raw_name_of ev
    norm_name := norm_of ev
    status := ev.status
    reason := ev.reason
    date_from := ev.date_from
    date_to := ev.date_to
    source_url := src_of ev source_url
    updated_at := now }

/-- One key of `.update({k: v for k, v in payload.items() if v is not
None})`: the new value wins unless it is null. -/
def optUpd (new old : Option Chars) : Option Chars :=
  match new with
  | some v => some v
  | none => old

/-- `base["events"][idx[eid]].update(...)` applied to every key of the
payload; the non-optional keys are never `None` in the payload. -/
def update_event (old payload : CEvent) : CEvent :=
  { id := payload.id
    pref := payload.pref
    pref_code := optUpd payload.pref_code old.pref_code
    name := payload.name
    norm_name := payload.norm_name
    status := optUpd payload.status old.status
    reason := optUpd payload.reason old.reason
    date_from := optUpd payload.date_from old.date_from
    date_to := optUpd payload.date_to old.date_to
    source_url := payload.source_url
    updated_at := payload.updated_at }

/-- `idx = {e.get("id"): i for i, e in enumerate(base["events"]) if
e.get("id")}`: the last occurrence of an id wins; empty ids are
skipped. -/
def lastIdxAux (eid : Chars) : List CEvent → Nat → Option Nat
  | [], _ => none
  | e :: t, i =>
    match lastIdxAux eid t (i + 1) with
    | some j => some j
    | none => if e.id ≠ [] ∧ e.id = eid then some i else none

def lastIdx (evs : List CEvent) (eid : Chars) : Option Nat := lastIdxAux eid evs 0

/-- The body of `merge_events`'s `for ev in new_events:` loop.  `idxF`
is the index snapshot computed once before the loop (appended events
are not added to it). -/
def merge_one (pref source_url now : Chars) (idxF : Chars → Option Nat)
    (evs : List CEvent) (ev : REvent) : List CEvent :=
  if raw_name_of ev = [] ∧ norm_of ev = [] then evs
  else
    match idxF (eid_of ev pref source_url) with
    | some i =>
      evs.set i (update_event (evs.getD i (payload_of ev pref source_url now))
        (payload_of ev pref source_url now))
    | none => evs ++ [payload_of ev pref source_url now]

/-- `merge_events(base, new_events, pref, source_url)` (the clock value
`now` is a parameter). -/
def merge_events (base : Store) (new_events : List REvent)
    (pref source_url now : Chars) : Store :=
  { events := new_events.foldl
      (merge_one pref source_url now (lastIdx base.events)) base.events
    updated := now }

theorem norm_of_nil_of_raw_nil (ev : REvent) (h : raw_name_of ev = []) :
    norm_of ev = [] := by
  have hnorm : pyStrOr ev.norm_name [] = [] := by
    unfold raw_name_of at h
    cases hm : ev.name with
    | none =>
      rw [hm] at h
      exact h
    | some v =>
      rw [hm] at h
      rw [show pyStrOr (some v) (pyStrOr ev.norm_name []) =
        if v = [] then pyStrOr ev.norm_name [] else v from rfl] at h
      split_ifs at h with hv
      · exact h
      · exact absurd h hv
  unfold norm_of
  rw [h, show norm_rindo_name [] = [] from rfl]
  exact hnorm

/-- C9 (amended): the merge engine skips a raw event only when its raw
name and its normalized name are both empty (`if not (raw_name or
norm): continue`); the event store's record list is then unchanged.  An
event with a non-empty raw name whose normalization is empty is still
stored (see `c9_counterexample`), refuting the original claim. -/
theorem c9_skip_only_when_both_empty (base : Store) (ev : REvent)
    (pref source_url now : Chars) (h : raw_name_of ev = []) :
    (merge_events base [ev] pref source_url now).events = base.events := by
  show List.foldl (merge_one pref source_url now (lastIdx base.events))
    base.events [ev] = base.events
  rw [List.foldl_cons, List.foldl_nil]
  unfold merge_one
  rw [if_pos ⟨h, norm_of_nil_of_raw_nil ev h⟩]

set_option maxRecDepth 100000 in
/-- C9 counterexample: a raw event named `線` normalizes to the empty
string, yet it is inserted into the store (the guard only tests the raw
name), so a record with empty `norm_name` reaches the store. -/
theorem c9_counterexample :
    ∃ e ∈ (merge_events ⟨[], []⟩
        [⟨some "線".toList, none, some "通行止".toList, none, none, none, none⟩]
        "長野県".toList "http://x.jp/a".toList "T1".toList).events,
      e.norm_name = [] := by decide

theorem c9_witness :
    raw_name_of ⟨none, none, some "通行止".toList, none, none, none, none⟩ = [] ∧
    (merge_events ⟨[], []⟩
      [⟨none, none, some "通行止".toList, none, none, none, none⟩]
      "長野県".toList "http://x.jp/a".toList "T1".toList).events = [] :=
  ⟨rfl, c9_skip_only_when_both_empty ⟨[], []⟩
    ⟨none, none, some "通行止".toList, none, none, none, none⟩
    "長野県".toList "http://x.jp/a".toList "T1".toList rfl⟩

theorem merge_one_fold_status (pref source_url now : Chars)
    (idxF : Chars → Option Nat) (tid : Chars) (hidx : idxF tid = some 0) :
    ∀ evs : List REvent,
      (∀ ev ∈ evs, ¬(raw_name_of ev = [] ∧ norm_of ev = []) ∧
        eid_of ev pref source_url = tid) →
      ∀ e : CEvent, e.id = tid →
        ∃ e1, List.foldl (merge_one pref source_url now idxF) [e] evs = [e1] ∧
          e1.id = tid ∧
          e1.status = evs.foldl
            (fun st ev => match ev.status with | some v => some v | none => st)
            e.status := by
  intro evs
  induction evs with
  | nil =>
    intro _ e he
    exact ⟨e, rfl, he, rfl⟩
  | cons ev t ih =>
    intro hall e he
    obtain ⟨hg, heid⟩ := hall ev (by simp)
    rw [List.foldl_cons]
    have hstep : merge_one pref source_url now idxF [e] ev =
        [update_event e (payload_of ev pref source_url now)] := by
      unfold merge_one
      rw [if_neg hg, heid, hidx]
      rfl
    rw [hstep]
    obtain ⟨e1, h1, h2, h3⟩ :=
      ih (fun ev2 hm => hall ev2 (List.mem_cons_of_mem _ hm))
        (update_event e (payload_of ev pref source_url now)) heid
    refine ⟨e1, h1, h2, ?_⟩
    rw [h3, List.foldl_cons]
    rfl

/-- C1 (amended): for a store holding a single record and a sequence of
raw events all merging into that record's id, the stored `status` after
`merge_events` is the LAST non-null status of the sequence (each merge
overwrites `status` whenever the incoming value is non-null, with no
severity comparison).  The original highest-severity claim is refuted
by `c1_counterexample`, where `closed` is overwritten by a later
`open`. -/
theorem c1_status_last_nonnull (e0 : CEvent) (evs : List REvent)
    (pref source_url now upd : Chars) (hid : e0.id ≠ [])
    (hall : ∀ ev ∈ evs, ¬(raw_name_of ev = [] ∧ norm_of ev = []) ∧
      eid_of ev pref source_url = e0.id) :
    ∃ e1, (merge_events ⟨[e0], upd⟩ evs pref source_url now).events = [e1] ∧
      e1.status = evs.foldl
        (fun st ev => match ev.status with | some v => some v | none => st)
        e0.status := by
  have hidx : lastIdx [e0] e0.id = some 0 := by
    show (match lastIdxAux e0.id [] 1 with
      | some j => some j
      | none => if e0.id ≠ [] ∧ e0.id = e0.id then some 0 else none) = some 0
    show (if e0.id ≠ [] ∧ e0.id = e0.id then some 0 else none) = some 0
    rw [if_pos ⟨hid, rfl⟩]
  obtain ⟨e1, h1, _, h3⟩ :=
    merge_one_fold_status pref source_url now (lastIdx [e0]) e0.id hidx evs hall
      e0 rfl
  exact ⟨e1, h1, h3⟩

set_option maxRecDepth 100000 in
/-- C1 counterexample: merging a `closed` event and then an `open`
event with the same identity leaves the store's status at `open`, not
at the highest severity seen (`closed`). -/
theorem c1_counterexample :
    (merge_events (merge_events ⟨[], []⟩
        [⟨some "大菩薩林道".toList, none, some "closed".toList, none, none, none,
          none⟩]
        "長野県".toList "http://x.jp/a".toList "T1".toList)
        [⟨some "大菩薩林道".toList, none, some "open".toList, none, none, none,
          none⟩]
        "長野県".toList "http://x.jp/a".toList "T2".toList).events.map
      (fun e => e.status) = [some "open".toList] := by decide

set_option maxRecDepth 100000 in
theorem c1_witness :
    ("b7e53f52d8287c43".toList ≠ ([] : Chars)) ∧
    (∀ ev ∈ [(⟨some "大菩薩林道".toList, none, some "open".toList, none, none,
        none, none⟩ : REvent)],
      ¬(raw_name_of ev = [] ∧ norm_of ev = []) ∧
        eid_of ev "長野県".toList "http://x.jp/a".toList =
          "b7e53f52d8287c43".toList) ∧
    ∃ e1, (merge_events ⟨[⟨"b7e53f52d8287c43".toList, "長野県".toList, none,
          "大菩薩林道".toList, "大菩薩".toList, some "closed".toList, none, none,
          none, "http://x.jp/a".toList, "T0".toList⟩], "T0".toList⟩
        [⟨some "大菩薩林道".toList, none, some "open".toList, none, none, none,
          none⟩]
        "長野県".toList "http://x.jp/a".toList "T1".toList).events = [e1] ∧
      e1.status = [(⟨some "大菩薩林道".toList, none, some "open".toList, none,
          none, none, none⟩ : REvent)].foldl
        (fun st ev => match ev.status with | some v => some v | none => st)
        (some "closed".toList) :=
  ⟨by decide, by decide,
    c1_status_last_nonnull
      ⟨"b7e53f52d8287c43".toList, "長野県".toList, none, "大菩薩林道".toList,
        "大菩薩".toList, some "closed".toList, none, none, none,
        "http://x.jp/a".toList, "T0".toList⟩
      [⟨some "大菩薩林道".toList, none, some "open".toList, none, none, none,
        none⟩]
      "長野県".toList "http://x.jp/a".toList "T1".toList "T0".toList
      (by decide) (by decide)⟩

/-- C7: merging a raw event whose id already exists in the store
updates exactly the fields carrying non-null values: every null field
of the incoming payload leaves the stored field unchanged, every
non-null field overwrites it, the record count is unchanged, and
`updated_at` is always refreshed to the merge time. -/
theorem c7_update_preserves_nonnull (base : Store) (ev : REvent)
    (pref source_url now : Chars) (i : Nat) (old : CEvent)
    (hg : ¬(raw_name_of ev = [] ∧ norm_of ev = []))
    (hidx : lastIdx base.events (eid_of ev pref source_url) = some i)
    (hold : base.events[i]? = some old) :
    ∃ neu, (merge_events base [ev] pref source_url now).events[i]? = some neu ∧
      (merge_events base [ev] pref source_url now).events.length =
        base.events.length ∧
      neu.updated_at = now ∧
      neu.id = eid_of ev pref source_url ∧
      neu.source_url = src_of ev source_url ∧
      (ev.status = none → neu.status = old.status) ∧
      (∀ v, ev.status = some v → neu.status = some v) ∧
      (ev.reason = none → neu.reason = old.reason) ∧
      (∀ v, ev.reason = some v → neu.reason = some v) ∧
      (ev.date_from = none → neu.date_from = old.date_from) ∧
      (∀ v, ev.date_from = some v → neu.date_from = some v) ∧
      (ev.date_to = none → neu.date_to = old.date_to) ∧
      (∀ v, ev.date_to = some v → neu.date_to = some v) := by
  have hlt : i < base.events.length := by
    by_contra hge
    rw [List.getElem?_eq_none (by omega)] at hold
    cases hold
  have hev : (merge_events base [ev] pref source_url now).events =
      base.events.set i
        (update_event old (payload_of ev pref source_url now)) := by
    show List.foldl (merge_one pref source_url now (lastIdx base.events))
      base.events [ev] = _
    rw [List.foldl_cons, List.foldl_nil]
    unfold merge_one
    rw [if_neg hg, hidx]
    show base.events.set i
        (update_event (base.events.getD i (payload_of ev pref source_url now))
          (payload_of ev pref source_url now)) = _
    rw [List.getD_eq_getElem?_getD, hold]
    rfl
  refine ⟨update_event old (payload_of ev pref source_url now), ?_, ?_, rfl, ?_,
    ?_, ?_, ?_, ?_, ?_, ?_, ?_, ?_, ?_⟩
  · rw [hev]
    exact List.getElem?_set_self hlt
  · rw [hev, List.length_set]
  · simp only [update_event, payload_of]
  · simp only [update_event, payload_of]
  · intro h
    show optUpd ev.status old.status = old.status
    rw [h]
    rfl
  · intro v h
    show optUpd ev.status old.status = some v
    rw [h]
    rfl
  · intro h
    show optUpd ev.reason old.reason = old.reason
    rw [h]
    rfl
  · intro v h
    show optUpd ev.reason old.reason = some v
    rw [h]
    rfl
  · intro h
    show optUpd ev.date_from old.date_from = old.date_from
    rw [h]
    rfl
  · intro v h
    show optUpd ev.date_from old.date_from = some v
    rw [h]
    rfl
  · intro h
    show optUpd ev.date_to old.date_to = old.date_to
    rw [h]
    rfl
  · intro v h
    show optUpd ev.date_to old.date_to = some v
    rw [h]
    rfl

set_option maxRecDepth 100000 in
theorem c7_witness :
    (¬(raw_name_of (⟨some "大菩薩林道".toList, none, some "open".toList, none,
        none, none, none⟩ : REvent) = [] ∧
      norm_of (⟨some "大菩薩林道".toList, none, some "open".toList, none, none,
        none, none⟩ : REvent) = [])) ∧
    lastIdx [(⟨"b7e53f52d8287c43".toList, "長野県".toList, none,
        "大菩薩林道".toList, "大菩薩".toList, some "closed".toList,
        some "落石".toList, none, none, "http://x.jp/a".toList,
        "T0".toList⟩ : CEvent)]
      (eid_of ⟨some "大菩薩林道".toList, none, some "open".toList, none, none,
          none, none⟩
        "長野県".toList "http://x.jp/a".toList) = some 0 ∧
    ∃ neu, (merge_events ⟨[⟨"b7e53f52d8287c43".toList, "長野県".toList, none,
          "大菩薩林道".toList, "大菩薩".toList, some "closed".toList,
          some "落石".toList, none, none, "http://x.jp/a".toList, "T0".toList⟩],
          "T0".toList⟩
        [⟨some "大菩薩林道".toList, none, some "open".toList, none, none, none,
          none⟩]
        "長野県".toList "http://x.jp/a".toList "T1".toList).events[0]? =
        some neu ∧
      (merge_events ⟨[⟨"b7e53f52d8287c43".toList, "長野県".toList, none,
          "大菩薩林道".toList, "大菩薩".toList, some "closed".toList,
          some "落石".toList, none, none, "http://x.jp/a".toList, "T0".toList⟩],
          "T0".toList⟩
        [⟨some "大菩薩林道".toList, none, some "open".toList, none, none, none,
          none⟩]
        "長野県".toList "http://x.jp/a".toList "T1".toList).events.length = 1 ∧
      neu.updated_at = "T1".toList ∧
      neu.id = eid_of ⟨some "大菩薩林道".toList, none, some "open".toList, none,
          none, none, none⟩ "長野県".toList "http://x.jp/a".toList ∧
      neu.source_url = src_of ⟨some "大菩薩林道".toList, none,
          some "open".toList, none, none, none, none⟩ "http://x.jp/a".toList ∧
      ((⟨some "大菩薩林道".toList, none, some "open".toList, none, none, none,
          none⟩ : REvent).status = none → neu.status = some "closed".toList) ∧
      (∀ v, (⟨some "大菩薩林道".toList, none, some "open".toList, none, none,
          none, none⟩ : REvent).status = some v → neu.status = some v) ∧
      ((⟨some "大菩薩林道".toList, none, some "open".toList, none, none, none,
          none⟩ : REvent).reason = none → neu.reason = some "落石".toList) ∧
      (∀ v, (⟨some "大菩薩林道".toList, none, some "open".toList, none, none,
          none, none⟩ : REvent).reason = some v → neu.reason = some v) ∧
      ((⟨some "大菩薩林道".toList, none, some "open".toList, none, none, none,
          none⟩ : REvent).date_from = none → neu.date_from = none) ∧
      (∀ v, (⟨some "大菩薩林道".toList, none, some "open".toList, none, none,
          none, none⟩ : REvent).date_from = some v → neu.date_from = some v) ∧
      ((⟨some "大菩薩林道".toList, none, some "open".toList, none, none, none,
          none⟩ : REvent).date_to = none → neu.date_to = none) ∧
      (∀ v, (⟨some "大菩薩林道".toList, none, some "open".toList, none, none,
          none, none⟩ : REvent).date_to = some v → neu.date_to = some v) :=
  ⟨by decide, by decide,
    c7_update_preserves_nonnull
      ⟨[⟨"b7e53f52d8287c43".toList, "長野県".toList, none, "大菩薩林道".toList,
        "大菩薩".toList, some "closed".toList, some "落石".toList, none, none,
        "http://x.jp/a".toList, "T0".toList⟩], "T0".toList⟩
      ⟨some "大菩薩林道".toList, none, some "open".toList, none, none, none,
        none⟩
      "長野県".toList "http://x.jp/a".toList "T1".toList 0
      ⟨"b7e53f52d8287c43".toList, "長野県".toList, none, "大菩薩林道".toList,
        "大菩薩".toList, some "closed".toList, some "落石".toList, none, none,
        "http://x.jp/a".toList, "T0".toList⟩
      (by decide) (by decide) rfl⟩

/-! The fetch / fingerprint layer: `conditional_get`, the per-URL state
record, and the slice of `run`'s URL loop that decides whether the
fingerprint is rewritten and the events merged. -/

/-- One fingerprint record of the `state` store (`state[url]`). -/
structure FingerPrint where
  etag : Option Chars
  last_modified : Option Chars
  length : Option Nat
  sha1 : Option Chars
  checked_at : Option Chars
deriving DecidableEq

/-- A completed HTTP response: status code, the two validator headers
read by the change detector, and the body bytes.  The content type and
the full header dict are carried by the caller. -/
structure HttpResp where
  status_code : Nat
  etag : Option Chars
  last_modified : Option Chars
  content : List Nat

/-- Truthiness of `headers.get(...)`: present and non-empty. -/
def truthyOpt : Option Chars → Bool
  | some s => s ≠ []
  | none => false

/-- `conditional_get` after a successful `client.get`: status 304
returns no body; otherwise the ETag / Last-Modified / length / SHA-1
cascade decides whether the body counts as changed, and an unchanged
body is also returned as `None`. -/
def conditional_get (r : HttpResp) (st : FingerPrint) : Option (List Nat) :=
  if r.status_code = 304 then none
  else
    let changed :=
      if truthyOpt r.etag = true ∧ r.etag ≠ st.etag then true
      else if truthyOpt r.last_modified = true ∧
          r.last_modified ≠ st.last_modified then true
      else if st.length ≠ some r.content.length then true
      else if st.sha1 ≠ some (sha1b r.content) then true
      else false
    if changed then some r.content else none

/-- `state.get(url, {})`. -/
def lookupFP (state : List (Chars × FingerPrint)) (url : Chars) : FingerPrint :=
  match state.find? (fun kv => kv.1 = url) with
  | some kv => kv.2
  | none => ⟨none, none, none, none, none⟩

/-- `state[url] = fp`. -/
def setFP (state : List (Chars × FingerPrint)) (url : Chars) (fp : FingerPrint) :
    List (Chars × FingerPrint) :=
  if state.any (fun kv => kv.1 = url) then
    state.map (fun kv => if kv.1 = url then (url, fp) else kv)
  else state ++ [(url, fp)]

/-- One iteration of `run`'s URL loop with `full=False`,
`dry_run=False`, restricted to the fetch / fingerprint / merge flow:
`if body is None: continue` fires before the `state[url] = {...}`
write.  The content-type dispatch that turns the body into events is
the loop's middle section, passed in as `events_of`. -/
def run_url_step (state : List (Chars × FingerPrint)) (out : Store)
    (url pref now : Chars) (r : HttpResp)
    (events_of : List Nat → List REvent) :
    List (Chars × FingerPrint) × Store :=
  match conditional_get r (lookupFP state url) with
  | none => (state, out)
  | some body =>
    let events := events_of body
    let out2 := if events ≠ [] then merge_events out events pref url now else out
    (setFP state url ⟨r.etag, r.last_modified, some body.length,
      some (sha1b body), some now⟩, out2)

/-- C5 (amended): a 304 not-modified response makes `conditional_get`
return no body, and `run`'s `if body is None: continue` skips the rest
of the loop body INCLUDING the `state[url] = {...}` write: the stored
fingerprint is not rewritten, so `checked_at` does not advance, and the
event store is untouched.  The original claim that the fingerprint is
written (with a fresh `checked_at`) after a 304 is refuted by
`c5_counterexample`. -/
theorem c5_304_skips_fingerprint (state : List (Chars × FingerPrint))
    (out : Store) (url pref now : Chars) (r : HttpResp)
    (events_of : List Nat → List REvent) (h : r.status_code = 304) :
    run_url_step state out url pref now r events_of = (state, out) := by
  unfold run_url_step conditional_get
  rw [if_pos h]

/-- C5 counterexample: a URL with a stored fingerprint checked at `T0`
receives a 304 at `T1`; the state after the loop iteration still holds
`checked_at = T0` — nothing is written, `checked_at` does not
advance. -/
theorem c5_counterexample :
    (run_url_step
        [("http://x.jp/a".toList, ⟨some "E1".toList, none, some 3,
          some "abc".toList, some "T0".toList⟩)]
        ⟨[], "T0".toList⟩ "http://x.jp/a".toList "長野県".toList "T1".toList
        ⟨304, some "E1".toList, none, []⟩ (fun _ => [])).1 =
      [("http://x.jp/a".toList, ⟨some "E1".toList, none, some 3,
          some "abc".toList, some "T0".toList⟩)] ∧
    (lookupFP (run_url_step
        [("http://x.jp/a".toList, ⟨some "E1".toList, none, some 3,
          some "abc".toList, some "T0".toList⟩)]
        ⟨[], "T0".toList⟩ "http://x.jp/a".toList "長野県".toList "T1".toList
        ⟨304, some "E1".toList, none, []⟩ (fun _ => [])).1
      "http://x.jp/a".toList).checked_at ≠ some "T1".toList := by
  exact ⟨by decide, by decide⟩

theorem c5_witness :
    (HttpResp.mk 304 (some "E2".toList) none []).status_code = 304 ∧
    run_url_step [] ⟨[], "T0".toList⟩ "http://y.jp/b".toList "岐阜県".toList
      "T2".toList (HttpResp.mk 304 (some "E2".toList) none [])
      (fun _ => []) = ([], ⟨[], "T0".toList⟩) :=
  ⟨rfl, c5_304_skips_fingerprint [] ⟨[], "T0".toList⟩ "http://y.jp/b".toList
    "岐阜県".toList "T2".toList (HttpResp.mk 304 (some "E2".toList) none [])
    (fun _ => []) rfl⟩

/-- `load_json(p, default)`: `try: return json.loads(p.read_text(...))
except Exception: return default`.  The outcome of reading and parsing
the file is the `Except` argument. -/
def load_json {α : Type} (r : Except Unit α) (default : α) : α :=
  match r with
  | Except.ok v => v
  | Except.error _ => default

/-- The three `load_json` calls at the top of `run` (registry, state,
event store), with the respective defaults `[]`, `{}` and
`{"updated": now_iso(), "events": []}`. -/
def run_load {α : Type} (rAg : Except Unit (List α))
    (rState : Except Unit (List (Chars × FingerPrint)))
    (rOut : Except Unit Store) (now : Chars) :
    List α × List (Chars × FingerPrint) × Store :=
  (load_json rAg [], load_json rState [], load_json rOut ⟨[], now⟩)

/-- C6 (amended): when reading any of the persisted documents fails,
`load_json` swallows the exception and returns the default, so `run`
proceeds with empty registry, empty fingerprint state and an empty
event store instead of aborting.  The original claim (fatal abort) is
refuted by `c6_counterexample`. -/
theorem c6_load_failure_returns_default (now : Chars) :
    run_load (Except.error () : Except Unit (List Chars)) (Except.error ())
      (Except.error ()) now = ([], [], ⟨[], now⟩) := rfl

/-- C6 counterexample: an unreadable event store loads as the default
store and the run continues — it does not abort. -/
theorem c6_counterexample :
    load_json (Except.error () : Except Unit Store) ⟨[], "T0".toList⟩ =
      ⟨[], "T0".toList⟩ := rfl

/-! The HTML extractor `harvest_from_html` and its helpers
`pick_status`, `pick_reason`, `pick_range`, `pick_names`.  Each regex
is an alternation of literals or a bounded pattern, embedded as an
explicit scanner with the engine's backtracking order. -/

/-- `pick_status`: the `P_STATUS` pattern list in order.  The optional
affixes `(全面|全線)?`/`(め)?` do not affect whether `re.search`
succeeds, so each test is a substring disjunction. -/
def pick_status (text : Chars) : Option Chars :=
  if containsSub "通行止".toList text then some "通行止".toList
  else if containsSub "通行規制".toList text ∨ containsSub "規制".toList text ∨
      containsSub "片側交互".toList text ∨
      containsSub "大型車通行止".toList text then some "規制".toList
  else if containsSub "解除".toList text ∨ containsSub "通行可".toList text ∨
      containsSub "通行可能".toList text then some "解除".toList
  else none

/-- The alternatives of `P_REASON` in order (`土砂(崩れ|流出)` expands to
its two branches in place). -/
def reasonAlts : List Chars :=
  ["落石", "倒木", "崩落", "土砂崩れ", "土砂流出", "凍結", "積雪", "台風",
   "豪雨", "地震", "崩土", "工事", "補修", "点検", "伐採", "路肩損傷",
   "路面損傷"].map String.toList

/-- `P_REASON.search(...).group(0)`: earliest match position, first
alternative at that position. -/
def reasonSearch : Chars → Option Chars
  | [] => none
  | c :: t =>
    match reasonAlts.find? (fun a => a.isPrefixOf (c :: t)) with
    | some a => some a
    | none => reasonSearch t

def pick_reason (text : Chars) : Option Chars := reasonSearch text

def isDateSep (c : Char) : Bool := c = '.' || c = '/' || c = '-'

/-- Exactly `n` decimal digits (`\d`, which also matches fullwidth
digits) at the head. -/
def takeDigits (l : Chars) (n : Nat) : Option (Chars × Chars) :=
  let d := l.take n
  if d.length = n ∧ d.all pyDigit = true then some (d, l.drop n) else none

/-- Candidates of the date pattern (four digits, separator `.` `-`
or slash, then two lazy one-or-two-digit fields) anchored at the
current position, as (matched text, rest) pairs in the engine's
backtracking order (greedy two-digit fields first). -/
def dateCandsAt (l : Chars) : List (Chars × Chars) :=
  match takeDigits l 4 with
  | none => []
  | some (y, r1) =>
    match r1 with
    | [] => []
    | c1 :: r2 =>
      if isDateSep c1 then
        ([2, 1] : List Nat).flatMap (fun n2 =>
          match takeDigits r2 n2 with
          | none => []
          | some (mo, r3) =>
            match r3 with
            | [] => []
            | c2 :: r4 =>
              if isDateSep c2 then
                ([2, 1] : List Nat).flatMap (fun n3 =>
                  match takeDigits r4 n3 with
                  | none => []
                  | some (d, r5) => [(y ++ c1 :: (mo ++ c2 :: d), r5)])
              else [])
      else []

/-- The dash/until alternatives of `P_RANGE` in order. -/
def rangeDashes : List Chars :=
  ["～", "~", "−", "-", "—", "–", "至", "まで", "から", "より"].map String.toList

/-- The literal alternatives of `P_RANGE`'s `to` group (after a date):
`未定|当面の間|当面|未定`. -/
def toAlts : List Chars := ["未定", "当面の間", "当面", "未定"].map String.toList

/-- The tail of `P_RANGE` after a matched from-date: greedy
`[^0-9]{0,6}` gap, one dash alternative, then the `to` group (a second
date, greedy, or a literal).  Returns the `to` group's text. -/
def rangeTailAt (r : Chars) : Option Chars :=
  let maxGap := min 6 (r.takeWhile (fun c => !isAsciiDigit c)).length
  ((List.range (maxGap + 1)).reverse).findSome? (fun k =>
    let r1 := r.drop k
    rangeDashes.findSome? (fun dsh =>
      if dsh.isPrefixOf r1 then
        let r2 := r1.drop dsh.length
        match dateCandsAt r2 with
        | (d, _) :: _ => some d
        | [] => toAlts.findSome? (fun a => if a.isPrefixOf r2 then some a else none)
      else none))

/-- `P_RANGE.search`: earliest start position whose from-date has a
matching tail. -/
def rangeSearch : Chars → Option (Chars × Chars)
  | [] => none
  | c :: t =>
    match (dateCandsAt (c :: t)).findSome? (fun cd =>
        (rangeTailAt cd.2).map (fun toTxt => (cd.1, toTxt))) with
    | some p => some p
    | none => rangeSearch t

/-- `P_DATE_SINGLE.search`. -/
def dateSingleSearch : Chars → Option Chars
  | [] => none
  | c :: t =>
    match dateCandsAt (c :: t) with
    | (d, _) :: _ => some d
    | [] => dateSingleSearch t

/-- `pick_range`. -/
def pick_range (text : Chars) : Option Chars × Option Chars :=
  match rangeSearch text with
  | some (f, t) => (some f, some t)
  | none =>
    match dateSingleSearch text with
    | some d => (some d, none)
    | none => (none, none)

/-- The character class of the two name patterns:
`[\w０-９0-9一-龥ぁ-んァ-ヶ々ー・･\- \u3000]`.  `\w` is modeled as ASCII
alphanumerics plus underscore; the kana/kanji the monitored pages use
are covered by the explicit ranges. -/
def nameClassChar (c : Char) : Bool :=
  (48 ≤ c.toNat && c.toNat ≤ 57) || (65 ≤ c.toNat && c.toNat ≤ 90) ||
  (97 ≤ c.toNat && c.toNat ≤ 122) || c = '_' ||
  (0xFF10 ≤ c.toNat && c.toNat ≤ 0xFF19) ||
  (0x4E00 ≤ c.toNat && c.toNat ≤ 0x9FA5) ||
  (0x3041 ≤ c.toNat && c.toNat ≤ 0x3093) ||
  (0x30A1 ≤ c.toNat && c.toNat ≤ 0x30F6) ||
  c.toNat = 0x3005 || c.toNat = 0x30FC || c.toNat = 0x30FB ||
  c.toNat = 0xFF65 || c = '-' || c = ' ' || c.toNat = 0x3000

/-- One attempt of `P_RINDO_1` at the current position:
`(林道|森林管理道)(?P<n>[...]{2,30}?)(?:線|せん|道)?`.  The name group is
lazy and the suffix optional, so a successful match captures exactly
the next two class characters; the optional suffix is then consumed if
present.  Returns (name group, rest after the whole match). -/
def p1At (l : Chars) : Option (Chars × Chars) :=
  let afterLit :=
    if "林道".toList.isPrefixOf l then some (l.drop 2)
    else if "森林管理道".toList.isPrefixOf l then some (l.drop 5)
    else none
  match afterLit with
  | none => none
  | some r =>
    let nm := r.take 2
    if nm.length = 2 ∧ nm.all nameClassChar = true then
      let r2 := r.drop 2
      let r3 :=
        if "線".toList.isPrefixOf r2 then r2.drop 1
        else if "せん".toList.isPrefixOf r2 then r2.drop 2
        else if "道".toList.isPrefixOf r2 then r2.drop 1
        else r2
      some (nm, r3)
    else none

/-- One attempt of `P_RINDO_2` at the current position: a lazy 2-30
class-character name followed by `林道|森林管理道|林道線` (alternation
order; lengths tried ascending). -/
def p2At (l : Chars) : Option (Chars × Chars) :=
  (List.range 29).findSome? (fun k =>
    let nm := l.take (k + 2)
    if nm.length = k + 2 ∧ nm.all nameClassChar = true then
      let r := l.drop (k + 2)
      if "林道".toList.isPrefixOf r then some (nm, r.drop 2)
      else if "森林管理道".toList.isPrefixOf r then some (nm, r.drop 5)
      else if "林道線".toList.isPrefixOf r then some (nm, r.drop 3)
      else none
    else none)

/-- `finditer`: scan left to right, resuming after each match. -/
def p1Scan : Nat → Chars → List Chars
  | 0, _ => []
  | _, [] => []
  | fuel + 1, c :: t =>
    match p1At (c :: t) with
    | some (nm, rest) => nm :: p1Scan fuel rest
    | none => p1Scan fuel t

def p2Scan : Nat → Chars → List Chars
  | 0, _ => []
  | _, [] => []
  | fuel + 1, c :: t =>
    match p2At (c :: t) with
    | some (nm, rest) => nm :: p2Scan fuel rest
    | none => p2Scan fuel t

def BAD_NAME_SUBSTR : List Chars :=
  ["路線名", "市町村", "現在", "管理", "センター", "注意", "について",
   "お知らせ"].map String.toList

def badName (nm : Chars) : Bool :=
  BAD_NAME_SUBSTR.any (fun b => containsSub b nm)

/-- Insertion-ordered deduplication, standing in for the `set` used by
`pick_names`; CPython's set iteration order is implementation-defined,
and nothing proved below depends on the order. -/
def dedup (l : List Chars) : List Chars :=
  l.foldl (fun acc n => if n ∈ acc then acc else acc ++ [n]) []

/-- `pick_names`: both finders contribute `norm_rindo_name`-normalized
names; names shorter than two characters or containing a bad substring
are dropped. -/
def pick_names (text : Chars) : List Chars :=
  (dedup ((p1Scan text.length text).map norm_rindo_name ++
    (p2Scan text.length text).map norm_rindo_name)).filter
    (fun n => 2 ≤ n.length ∧ badName n = false)

example : pick_status "林道木曽線は全面通行止め".toList = some "通行止".toList := by
  decide
example : pick_status "片側交互通行".toList = some "規制".toList := by decide
example : pick_status "規制解除".toList = some "規制".toList := by decide
example : pick_status "通行可能".toList = some "解除".toList := by decide
example : pick_status "路線名".toList = none := by decide
example : pick_reason "通行止 崩落のため".toList = some "崩落".toList := by decide
example : pick_reason "土砂流出あり".toList = some "土砂流出".toList := by decide
example : pick_range "2024.1.12まで規制".toList =
    (some "2024.1.12".toList, none) := by decide
example : pick_range "林道木曽線は2024.4.1～2024/12/28まで全面通行止め".toList =
    (some "2024.4.1".toList, some "2024/12/28".toList) := by decide
example : pick_range "2025-7-15から当面の間".toList =
    (some "2025-7-15".toList, some "当面の間".toList) := by decide
example : pick_range "（2023/11/6-2024/4/25）".toList =
    (some "2023/11/6".toList, some "2024/4/25".toList) := by decide
example : pick_range "2024.12.1～未定".toList =
    (some "2024.12.1".toList, some "未定".toList) := by decide
example :
    p1Scan "大菩薩林道 通行止".toList.length "大菩薩林道 通行止".toList =
      [" 通".toList] := by decide
example :
    p2Scan "大菩薩林道 通行止".toList.length "大菩薩林道 通行止".toList =
      ["大菩薩".toList] := by decide
example :
    p1Scan "白谷林道・池川林道 冬期通行止".toList.length
      "白谷林道・池川林道 冬期通行止".toList =
      ["・池".toList, " 冬".toList] := by decide
example :
    p2Scan "白谷林道・池川林道 冬期通行止".toList.length
      "白谷林道・池川林道 冬期通行止".toList =
      ["白谷".toList, "・池川".toList] := by decide
example :
    p1Scan "あ林道い森林管理道うえ林道線".toList.length
      "あ林道い森林管理道うえ林道線".toList = ["い森".toList] := by decide
example :
    p2Scan "あ林道い森林管理道うえ林道線".toList.length
      "あ林道い森林管理道うえ林道線".toList =
      ["あ林道い".toList, "うえ".toList] := by decide
example : p1Scan "林道ああ線せん道".toList.length "林道ああ線せん道".toList =
    ["ああ".toList] := by decide
example : pick_names "大菩薩林道 通行止".toList = ["大菩薩".toList] := by decide
example : pick_names "白谷林道・池川林道".toList =
    ["白谷".toList, "池川".toList] := by decide

/-- One `tr` of a parsed table: the raw texts of its `th,td` cells. -/
structure HRow where
  cells : List Chars
deriving DecidableEq

structure HTable where
  rows : List HRow
deriving DecidableEq

/-- A parsed HTML document as the three node streams `harvest_from_html`
consumes: the tables, the `li` and `p` node texts in document order,
and the lines of the whole-document text. -/
structure HDoc where
  tables : List HTable
  liP : List Chars
  bodyLines : List Chars
deriving DecidableEq

/-- One event dict appended by `harvest_from_html`. -/
structure HEvent where
  name : Chars
  norm_name : Chars
  status : Chars
  reason : Option Chars
  date_from : Option Chars
  date_to : Option Chars
  snippet : Chars
deriving DecidableEq

/-- `NAME_HEAD_RE.search(h)`. -/
def nameHeadHit (h : Chars) : Bool :=
  containsSub "路線名".toList h || containsSub "林道名".toList h ||
  containsSub "森林管理道名".toList h || containsSub "名称".toList h ||
  containsSub "路線".toList h || containsSub "路線等".toList h ||
  containsSub "路線番号".toList h

/-- The name-column guess when no header matches: count `林道`/`管理道`
hits per column over rows 1-7; `cand.sort(reverse=True)` picks the
largest (count, index) pair, so ties favour the larger index; the guess
only sticks when some column scored. -/
def nameColGuess (headers : List Chars) (dataRows : List HRow) : Option Nat :=
  let bound := min 6 (max 1 headers.length)
  let sample := dataRows.take 7
  let cand := (List.range bound).map (fun i =>
    (sample.foldl (fun cnt tr =>
      let cells := tr.cells.map pyStrip
      if i < cells.length ∧ (containsSub "林道".toList (cells.getD i []) = true ∨
          containsSub "管理道".toList (cells.getD i []) = true) then cnt + 1
      else cnt) 0, i))
  match cand.foldl (fun acc c =>
    match acc with
    | none => some c
    | some b => if b.1 < c.1 ∨ (b.1 = c.1 ∧ b.2 < c.2) then some c else some b)
    none with
  | some (cnt, i) => if 0 < cnt then some i else none
  | none => none

/-- One data row of the table tier. -/
def rowEvents (name_idx : Option Nat) (tr : HRow) : List HEvent :=
  let cells := tr.cells.map pyStrip
  if cells.length < 2 then []
  else
    let row_text := List.intercalate [' '] cells
    match pick_status row_text with
    | none => []
    | some st =>
      let nm_raw :=
        match name_idx with
        | some i => if i < cells.length then cells.getD i [] else []
        | none => []
      let nm_raw2 := if nm_raw = [] then (pick_names row_text).headD [] else nm_raw
      let nm := norm_rindo_name nm_raw2
      if nm = [] ∨ nm.length < 2 ∨ badName nm = true then []
      else
        [{ name := nm ++ "林道".toList
           norm_name := nm
           status := st
           reason := pick_reason row_text
           date_from := (pick_range row_text).1
           date_to := (pick_range row_text).2
           snippet := row_text.take 160 }]

/-- One table of the table tier: headers from the first row, the
name-column from `NAME_HEAD_RE` or the guess, events from the data
rows. -/
def tableEvents (tbl : HTable) : List HEvent :=
  match tbl.rows with
  | [] => []
  | r0 :: dataRows =>
    let headers := r0.cells.map pyStrip
    let name_idx :=
      match headers.findIdx? nameHeadHit with
      | some i => some i
      | none => nameColGuess headers dataRows
    dataRows.foldl (fun acc tr => acc ++ rowEvents name_idx tr) []

/-- The keyword gate of the `li`/`p` and body tiers:
`re.search(r"(通行止|規制|解除|通行可|通行可能)", line)`. -/
def lineKeywordHit (line : Chars) : Bool :=
  containsSub "通行止".toList line || containsSub "規制".toList line ||
  containsSub "解除".toList line || containsSub "通行可".toList line ||
  containsSub "通行可能".toList line

/-- One node text (or body line) of the `li`/`p` and body tiers. -/
def lineEvents (node_text : Chars) : List HEvent :=
  let line := pyStrip node_text
  if line = [] then []
  else if (containsSub "林道".toList line = false ∧
      containsSub "管理道".toList line = false) ∨
      lineKeywordHit line = false then []
  else
    let st :=
      match pick_status line with
      | some s => s
      | none => "規制".toList
    (pick_names line).foldl (fun acc n =>
      if norm_rindo_name n = [] ∨ (norm_rindo_name n).length < 2 ∨
          badName (norm_rindo_name n) = true then acc
      else acc ++ [{ name := norm_rindo_name n ++ "林道".toList
                     norm_name := norm_rindo_name n
                     status := st
                     reason := pick_reason line
                     date_from := (pick_range line).1
                     date_to := (pick_range line).2
                     snippet := line.take 160 }]) []

/-- `harvest_from_html`: all three tiers append to ONE `events` list —
tables first, then every `li` and `p` node, then every body-text
line. -/
def harvest_from_html (doc : HDoc) : List HEvent :=
  let ev1 := doc.tables.foldl (fun acc tbl => acc ++ tableEvents tbl) []
  let ev2 := doc.liP.foldl (fun acc node => acc ++ lineEvents node) ev1
  doc.bodyLines.foldl (fun acc node => acc ++ lineEvents node) ev2

/-- The table tier in isolation. -/
def tableTier (doc : HDoc) : List HEvent :=
  doc.tables.foldl (fun acc tbl => acc ++ tableEvents tbl) []

/-- The `li`/`p` tier in isolation. -/
def liPTier (doc : HDoc) : List HEvent :=
  doc.liP.foldl (fun acc node => acc ++ lineEvents node) []

/-- The body-line tier in isolation. -/
def bodyTier (doc : HDoc) : List HEvent :=
  doc.bodyLines.foldl (fun acc node => acc ++ lineEvents node) []

/-- The dicts produced by `harvest_from_html` as `merge_events` consumes
them in `run` (`ev.get` of the absent `source_url` key is `None`). -/
def hEventToRaw (e : HEvent) : REvent :=
  { name := some e.name
    norm_name := some e.norm_name
    status := some e.status
    reason := e.reason
    date_from := e.date_from
    date_to := e.date_to
    source_url := none }

example : harvest_from_html
    ⟨[⟨[⟨["路線名".toList, "状況".toList]⟩,
        ⟨["木曽線".toList, "通行止".toList]⟩]⟩], [], []⟩ =
    [⟨"木曽林道".toList, "木曽".toList, "通行止".toList, none, none, none,
      "木曽線 通行止".toList⟩] := by decide
example : lineEvents "大菩薩林道 通行止".toList =
    [⟨"大菩薩林道".toList, "大菩薩".toList, "通行止".toList, none, none, none,
      "大菩薩林道 通行止".toList⟩] := by decide

theorem foldl_append_init {α β : Type} (f : β → List α) :
    ∀ (l : List β) (init : List α),
      l.foldl (fun acc b => acc ++ f b) init =
        init ++ l.foldl (fun acc b => acc ++ f b) [] := by
  intro l
  induction l with
  | nil =>
    intro init
    simp
  | cons b t ih =>
    intro init
    rw [List.foldl_cons, List.foldl_cons, ih (init ++ f b), ih ([] ++ f b)]
    simp

theorem mem_foldl_acc_append {α β : Type} (f : β → List α) :
    ∀ (l : List β) (init : List α) (x : α),
      x ∈ l.foldl (fun acc b => acc ++ f b) init →
        x ∈ init ∨ ∃ b ∈ l, x ∈ f b := by
  intro l
  induction l with
  | nil =>
    intro init x hx
    exact Or.inl hx
  | cons b t ih =>
    intro init x hx
    rw [List.foldl_cons] at hx
    rcases ih (init ++ f b) x hx with hx | ⟨b2, hb2, hx⟩
    · rcases List.mem_append.mp hx with hx | hx
      · exact Or.inl hx
      · exact Or.inr ⟨b, by simp, hx⟩
    · exact Or.inr ⟨b2, List.mem_cons_of_mem _ hb2, hx⟩

/-- C4 (amended): `harvest_from_html` is NOT a first-tier-wins fallback
chain — the three tiers all append to the same events list, and the
result is always the concatenation of the table tier, the `li`/`p`
tier and the body-line tier.  `c4_counterexample` shows a document
where the table tier yields an event and the `li` tier still
contributes. -/
theorem c4_tiers_concatenate (doc : HDoc) :
    harvest_from_html doc = tableTier doc ++ liPTier doc ++ bodyTier doc := by
  unfold harvest_from_html tableTier liPTier bodyTier
  rw [foldl_append_init (fun node => lineEvents node) doc.bodyLines,
    foldl_append_init (fun node => lineEvents node) doc.liP,
    List.append_assoc]

/-- C4 counterexample: a document whose table yields an event and whose
`li` stream also yields one; the extractor returns both, so a
producing table tier does not suppress the later tiers. -/
theorem c4_counterexample :
    tableTier ⟨[⟨[⟨["路線名".toList, "状況".toList]⟩,
        ⟨["木曽線".toList, "通行止".toList]⟩]⟩],
      ["大菩薩林道 通行止".toList], []⟩ ≠ [] ∧
    harvest_from_html ⟨[⟨[⟨["路線名".toList, "状況".toList]⟩,
        ⟨["木曽線".toList, "通行止".toList]⟩]⟩],
      ["大菩薩林道 通行止".toList], []⟩ ≠
      tableTier ⟨[⟨[⟨["路線名".toList, "状況".toList]⟩,
        ⟨["木曽線".toList, "通行止".toList]⟩]⟩],
      ["大菩薩林道 通行止".toList], []⟩ := by decide

theorem mem_foldl_cond {α β : Type} [DecidableEq α] {p : β → Prop}
    [DecidablePred p] {g : β → α} {l : List β} {init : List α} {x : α}
    (hx : x ∈ l.foldl (fun acc b => if p b then acc else acc ++ [g b]) init) :
    x ∈ init ∨ ∃ b ∈ l, x = g b := by
  induction l generalizing init with
  | nil => exact Or.inl hx
  | cons b t ih =>
    rw [List.foldl_cons] at hx
    rcases ih hx with hx2 | ⟨b2, hb2, hx2⟩
    · split_ifs at hx2
      · exact Or.inl hx2
      · rcases List.mem_append.mp hx2 with h | h
        · exact Or.inl h
        · exact Or.inr ⟨b, by simp, List.mem_singleton.mp h⟩
    · exact Or.inr ⟨b2, List.mem_cons_of_mem _ hb2, hx2⟩

theorem pick_status_mem (t s : Chars) (h : pick_status t = some s) :
    s = "通行止".toList ∨ s = "規制".toList ∨ s = "解除".toList := by
  unfold pick_status at h
  split_ifs at h
  · exact Or.inl (Option.some.inj h).symm
  · exact Or.inr (Or.inl (Option.some.inj h).symm)
  · exact Or.inr (Or.inr (Option.some.inj h).symm)

theorem rowEvents_status (name_idx : Option Nat) (tr : HRow) (e : HEvent)
    (he : e ∈ rowEvents name_idx tr) :
    e.status = "通行止".toList ∨ e.status = "規制".toList ∨
      e.status = "解除".toList := by
  simp only [rowEvents] at he
  split_ifs at he <;>
    first
      | exact absurd he (List.not_mem_nil _)
      | (split at he <;>
          first
            | exact absurd he (List.not_mem_nil _)
            | (rename_i x st hst
               rcases List.mem_singleton.mp he with rfl
               exact pick_status_mem _ st hst))

theorem lineEvents_status (node_text : Chars) (e : HEvent)
    (he : e ∈ lineEvents node_text) :
    e.status = "通行止".toList ∨ e.status = "規制".toList ∨
      e.status = "解除".toList := by
  simp only [lineEvents] at he
  split_ifs at he
  · cases he
  · cases he
  · have hst : (match pick_status (pyStrip node_text) with
        | some s => s
        | none => "規制".toList) = "通行止".toList ∨
      (match pick_status (pyStrip node_text) with
        | some s => s
        | none => "規制".toList) = "規制".toList ∨
      (match pick_status (pyStrip node_text) with
        | some s => s
        | none => "規制".toList) = "解除".toList := by
      cases hs : pick_status (pyStrip node_text) with
      | none => exact Or.inr (Or.inl rfl)
      | some s => exact pick_status_mem _ s hs
    revert he
    generalize (match pick_status (pyStrip node_text) with
      | some s => s
      | none => "規制".toList) = st at hst
    intro he
    rcases mem_foldl_cond he with h0 | ⟨n, hn, he⟩
    · cases h0
    · rw [he]
      exact hst

/-- C2 (amended): every event `harvest_from_html` extracts carries one
of the three JAPANESE labels `通行止` / `規制` / `解除` from `P_STATUS`
(or the `li`/body default `規制`) — never the English `open` /
`regulated` / `closed` of the spec.  `merge_events` stores this field
verbatim, so the store holds Japanese labels for these events
(`c2_counterexample`); other producers (`extract_generic_jp`, the
Yamanashi parser) emit the English codes, so the store mixes the two
vocabularies and the spec's three-English-values invariant fails. -/
theorem c2_harvest_status_japanese (doc : HDoc) (e : HEvent)
    (he : e ∈ harvest_from_html doc) :
    e.status = "通行止".toList ∨ e.status = "規制".toList ∨
      e.status = "解除".toList := by
  unfold harvest_from_html at he
  rcases mem_foldl_acc_append _ doc.bodyLines _ e he with he | ⟨node, _, he⟩
  · rcases mem_foldl_acc_append _ doc.liP _ e he with he | ⟨node, _, he⟩
    · rcases mem_foldl_acc_append _ doc.tables _ e he with he | ⟨tbl, _, he⟩
      · cases he
      · unfold tableEvents at he
        split at he
        · cases he
        · rcases mem_foldl_acc_append _ _ _ e he with he | ⟨tr, _, he⟩
          · cases he
          · exact rowEvents_status _ tr e he
    · exact lineEvents_status node e he
  · exact lineEvents_status node e he

set_option maxRecDepth 100000 in
/-- C2 counterexample: harvesting a line with `通行止` and merging the
result stores `status = 通行止`, which is none of `open` / `regulated`
/ `closed`. -/
theorem c2_counterexample :
    ((merge_events ⟨[], []⟩
        ((harvest_from_html ⟨[], ["奈良田林道 通行止".toList], []⟩).map
          hEventToRaw)
        "山梨県".toList "http://y.jp/r".toList "T1".toList).events.map
      (fun e => e.status)) = [some "通行止".toList] ∧
    "通行止".toList ∉ ["open".toList, "regulated".toList, "closed".toList] := by
  exact ⟨by decide, by decide⟩

theorem c2_witness :
    (⟨"白谷林道".toList, "白谷".toList, "規制".toList, none, none, none,
        "白谷林道 規制".toList⟩ : HEvent) ∈
      harvest_from_html ⟨[], [], ["白谷林道 規制".toList]⟩ ∧
    ((⟨"白谷林道".toList, "白谷".toList, "規制".toList, none, none, none,
        "白谷林道 規制".toList⟩ : HEvent).status = "通行止".toList ∨
      (⟨"白谷林道".toList, "白谷".toList, "規制".toList, none, none, none,
        "白谷林道 規制".toList⟩ : HEvent).status = "規制".toList ∨
      (⟨"白谷林道".toList, "白谷".toList, "規制".toList, none, none, none,
        "白谷林道 規制".toList⟩ : HEvent).status = "解除".toList) :=
  ⟨by decide, c2_harvest_status_japanese ⟨[], [], ["白谷林道 規制".toList]⟩
    ⟨"白谷林道".toList, "白谷".toList, "規制".toList, none, none, none,
      "白谷林道 規制".toList⟩ (by decide)⟩

end Rindo
